import Mathlib

/-!
Verification of the SFDC account-matching core
(`src/services/fuzzy_matching_service.py` and the result-assembly part of
`src/services/excel_service.py`) against its natural-language specification.

The Python code is shallowly embedded: records become structures of `String`
fields (Python's `dict.get(key, '')` with empty-string/`None` falsiness becomes
`= ""` tests), floats become `ℚ` (all arithmetic in the source is exact decimal
weighting, no float rounding is observable at the granularity of the claims),
and `difflib.SequenceMatcher` (stdlib, called with `isjunk=None` on short
strings, so the autojunk heuristic for strings of length ≥ 200 never fires on
the modelled fragment) is embedded by its run-length dynamic program plus the
greedy matching-block recursion.  String operations are modelled on their
ASCII fragment (`str.lower`, `str.strip`, `re` character classes); all data in
the source and in the claims is ASCII.
-/

namespace SFDC

/-! ## Python string primitives (ASCII fragment) -/

/-- Python whitespace for `str.split()` / `str.strip()` (ASCII fragment). -/
def pyIsSpace (c : Char) : Bool :=
  c = ' ' || c = '\t' || c = '\n' || c = '\r' || c = '\x0b' || c = '\x0c'

/-- The character class `[a-zA-Z0-9]` used by the source's regexes. -/
def isAlnumAscii (c : Char) : Bool :=
  ('a' ≤ c && c ≤ 'z') || ('A' ≤ c && c ≤ 'Z') || ('0' ≤ c && c ≤ '9')

/-- `str.lower` on one character (ASCII fragment of Python's `str.lower`). -/
def pyLowerChar (c : Char) : Char :=
  if 'A' ≤ c ∧ c ≤ 'Z' then Char.ofNat (c.toNat + 32) else c

/-- `str.lower` on a character list. -/
def pyLower (l : List Char) : List Char := l.map pyLowerChar

/-- `str.lower` on a string. -/
def pyLowerStr (s : String) : String := ⟨pyLower s.data⟩

/-- `str.strip()`: drop whitespace from both ends. -/
def pyStrip (s : String) : String :=
  ⟨((s.data.dropWhile pyIsSpace).reverse.dropWhile pyIsSpace).reverse⟩

/-- `str.startswith` (Python slices and compares by characters; the
character-list form keeps every definition kernel-reducible). -/
def strStartsWith (s p : String) : Bool := p.data.isPrefixOf s.data

/-- `str.endswith`, by characters. -/
def strEndsWith (s p : String) : Bool := p.data.isSuffixOf s.data

/-- `s[n:]`, by characters. -/
def strDrop (s : String) (n : Nat) : String := ⟨s.data.drop n⟩

/-- `s[:-n]` (for `0 < n ≤ len(s)`), by characters. -/
def strDropRight (s : String) (n : Nat) : String :=
  ⟨s.data.take (s.data.length - n)⟩

/-- `re.sub(r'[^a-zA-Z0-9\s]', ' ', ·)` on one character. -/
def denoiseChar (c : Char) : Char :=
  if isAlnumAscii c || pyIsSpace c then c else ' '

/-- `re.sub(r'[^a-zA-Z0-9\s]', ' ', ·)`. -/
def denoise (l : List Char) : List Char := l.map denoiseChar

/-- Helper for `str.split()`: accumulates the current word (reversed). -/
def splitWsAux : List Char → List Char → List (List Char)
  | [], acc => if acc.isEmpty then [] else [acc.reverse]
  | c :: cs, acc =>
    if pyIsSpace c then
      if acc.isEmpty then splitWsAux cs [] else acc.reverse :: splitWsAux cs []
    else splitWsAux cs (c :: acc)

/-- Python `str.split()` (no argument): split on whitespace runs, drop empties. -/
def splitWs (l : List Char) : List (List Char) := splitWsAux l []

/-- `' '.join(words)`. -/
def joinWords : List (List Char) → List Char
  | [] => []
  | [w] => w
  | w :: ws => w ++ ' ' :: joinWords ws

/-- `' '.join(s.split())`: collapse whitespace runs to single spaces. -/
def collapseWs (l : List Char) : List Char := joinWords (splitWs l)

/-! ## Text normalizer (`fuzzy_matching_service.py`) -/

/-- `self.domain_prefixes` from `FuzzyMatchingService.__init__`. -/
def domain_prefixes : List String :=
  ["www.", "app.", "portal.", "my.", "secure.", "admin."]

/-- `self.domain_suffixes` from `FuzzyMatchingService.__init__`. -/
def domain_suffixes : List String :=
  [".com", ".org", ".net", ".edu", ".gov", ".co", ".io", ".ai"]

/-- `business_suffixes` from `normalize_company_name`. -/
def business_suffixes : List String :=
  ["inc", "incorporated", "corp", "corporation", "ltd", "limited",
   "llc", "llp", "company", "co", "group", "holdings", "enterprises"]

/-- The four separator patterns tried (in order) for one business suffix:
`f' {suffix}', f'.{suffix}', f',{suffix}', f'-{suffix}'`. -/
def suffixPatterns (suffix : String) : List (List Char) :=
  [' ' :: suffix.data, '.' :: suffix.data, ',' :: suffix.data, '-' :: suffix.data]

/-- One iteration of the suffix loop in `normalize_company_name`: the first
matching pattern of this suffix is stripped (`break` after the first hit). -/
def stripOneSuffix (l : List Char) (suffix : String) : List Char :=
  match (suffixPatterns suffix).find? (fun p => p.isSuffixOf l) with
  | some p => l.take (l.length - p.length)
  | none => l

/-- The whole suffix loop of `normalize_company_name`: each business suffix is
tried once, in list order (the `break` only leaves the inner pattern loop). -/
def stripBusinessSuffixes (l : List Char) : List Char :=
  business_suffixes.foldl stripOneSuffix l

/-- All 52 separator+suffix patterns, for stating when no further stripping
can occur. -/
def allSuffixPatterns : List (List Char) :=
  business_suffixes.flatMap suffixPatterns

/-- Core of `normalize_company_name` on the character list: lower-case, strip
business suffixes, replace `[^a-zA-Z0-9\s]` by spaces, collapse whitespace. -/
def normalizeCore (l : List Char) : List Char :=
  collapseWs (denoise (stripBusinessSuffixes (pyLower l)))

/-- `normalize_company_name` (lines 53-79 of `fuzzy_matching_service.py`). -/
def normalize_company_name (name : String) : String :=
  if name = "" then "" else ⟨normalizeCore name.data⟩

/-! ## `difflib.SequenceMatcher` (no junk: the service passes `isjunk=None`
and all compared strings are far below the 200-character autojunk threshold).

`find_longest_match` is embedded through the run-length dynamic program its
`j2len` loop computes: `runlen i j` is the length of the common-suffix run of
matches ending at positions `(i, j)` inside the current window, and the loop
keeps the first `(i, j)` (row-major scan, strictly-greater updates) attaining
the maximal run length.  The trailing junk-extension loops of the Python code
are provably no-ops when there is no junk, since the run length recorded for
the winner is already maximal.  This functional reformulation was validated
against CPython's `difflib` on thousands of random string pairs. -/

/-- Length of the run of equal characters ending at `(i, j)`, clipped at the
window start `(alo, blo)` — the value `j2len[j]` holds in row `i`. -/
def runlen (a b : List Char) (alo blo : Nat) : Nat → Nat → Nat
  | i + 1, j + 1 =>
    match a[i + 1]?, b[j + 1]? with
    | some x, some y =>
      if x = y then
        if alo < i + 1 ∧ blo < j + 1 then runlen a b alo blo i j + 1 else 1
      else 0
    | _, _ => 0
  | i, j =>
    match a[i]?, b[j]? with
    | some x, some y => if x = y then 1 else 0
    | _, _ => 0

/-- Row-major scan order of the window, mirroring `for i in range(alo, ahi)`
with `j` ascending inside each row. -/
def scanPairs (alo ahi blo bhi : Nat) : List (Nat × Nat) :=
  (List.range' alo (ahi - alo)).flatMap fun i =>
    (List.range' blo (bhi - blo)).map fun j => (i, j)

/-- One candidate step of `find_longest_match`: keep the better of the stored
best end-position/size and the run ending at `p` (strict improvement only). -/
def flmStep (a b : List Char) (alo blo : Nat)
    (best : Nat × Nat × Nat) (p : Nat × Nat) : Nat × Nat × Nat :=
  let k := runlen a b alo blo p.1 p.2
  if best.2.2 < k then (p.1, p.2, k) else best

/-- `SequenceMatcher.find_longest_match(alo, ahi, blo, bhi)`: returns
`(i, j, size)` — start positions and length of the winning block
(`(alo, blo, 0)` when the windows share nothing). -/
def flm (a b : List Char) (alo ahi blo bhi : Nat) : Nat × Nat × Nat :=
  let best := (scanPairs alo ahi blo bhi).foldl (flmStep a b alo blo) (alo, blo, 0)
  if best.2.2 = 0 then (alo, blo, 0)
  else (best.1 + 1 - best.2.2, best.2.1 + 1 - best.2.2, best.2.2)

/-- Total matched length of `get_matching_blocks` restricted to a window: the
greedy recursion around the longest match.  `fuel` is an upper bound on the
recursion depth (each recursive window is strictly smaller on the `a` side),
only present to make the recursion structural. -/
def matchesIn (a b : List Char) : Nat → Nat → Nat → Nat → Nat → Nat
  | 0, _, _, _, _ => 0
  | fuel + 1, alo, ahi, blo, bhi =>
    let t := flm a b alo ahi blo bhi
    if t.2.2 = 0 then 0
    else
      t.2.2 +
        (if alo < t.1 ∧ blo < t.2.1 then
          matchesIn a b fuel alo t.1 blo t.2.1 else 0) +
        (if t.1 + t.2.2 < ahi ∧ t.2.1 + t.2.2 < bhi then
          matchesIn a b fuel (t.1 + t.2.2) ahi (t.2.1 + t.2.2) bhi else 0)

/-- `sum(block.size for block in get_matching_blocks())` over the full strings. -/
def seqMatches (a b : List Char) : Nat :=
  matchesIn a b (a.length + 1) 0 a.length 0 b.length

/-- `SequenceMatcher(None, a, b).ratio()`: `2*M / (len(a)+len(b))` as an exact
rational (`1` for two empty sequences, as in `difflib._calculate_ratio`). -/
def ratioQ (a b : List Char) : ℚ :=
  if a.length + b.length = 0 then 1
  else (2 * seqMatches a b : ℚ) / (a.length + b.length : ℚ)

/-- `compute_fuzzy_similarity` (lines 81-95). -/
def compute_fuzzy_similarity (str1 str2 : String) : ℚ :=
  if str1 = "" ∨ str2 = "" then 0
  else
    let norm1 := normalize_company_name str1
    let norm2 := normalize_company_name str2
    if norm1 = "" ∨ norm2 = "" then 0
    else ratioQ norm1.data norm2.data

/-! ## URL / domain extraction -/

/-- `urlsplit` removes every occurrence of `_UNSAFE_URL_BYTES_TO_REMOVE`
(tab, carriage return, newline) from the URL before parsing it. -/
def removeUnsafeChars (l : List Char) : List Char :=
  l.filter fun c => !(c = '\t' || c = '\r' || c = '\n')

/-- `urlparse(url).netloc` for a URL that is guaranteed to carry an
`http://` / `https://` scheme (the function below ensures this, so
`urlsplit`'s initial `lstrip` of C0-control/space characters is a no-op:
the string always starts with `h`): after tab/CR/LF removal, the
characters after the scheme separator up to the first `/`, `?` or `#`. -/
def netlocOf (url : String) : List Char :=
  let u := if strStartsWith url ("http://") || strStartsWith url ("https://")
           then url else "https://" ++ url
  let cleaned := removeUnsafeChars u.data
  let rest := if ("https://").data.isPrefixOf cleaned then cleaned.drop 8
              else cleaned.drop 7
  rest.takeWhile fun c => !(c = '/' || c = '?' || c = '#')

/-- Python `str.split(sep)` for a one-character separator: at least one
(possibly empty) piece is always produced. -/
def splitOnChar (sep : Char) : List Char → List (List Char)
  | [] => [[]]
  | c :: cs =>
    if c = sep then [] :: splitOnChar sep cs
    else
      match splitOnChar sep cs with
      | p :: ps => (c :: p) :: ps
      | [] => [[c]]

def isDecDigitAscii (c : Char) : Bool := '0' ≤ c && c ≤ '9'

def isHexDigitAscii (c : Char) : Bool :=
  isDecDigitAscii c || ('a' ≤ c && c ≤ 'f') || ('A' ≤ c && c ≤ 'F')

def parseDecNat (l : List Char) : Nat :=
  l.foldl (fun n c => n * 10 + (c.toNat - 48)) 0

/-- `IPv4Address._parse_octet`: non-empty ASCII digits, at most 3 of them,
no leading zero (except `"0"` itself), value at most 255. -/
def validOctet (s : List Char) : Bool :=
  !s.isEmpty && s.all isDecDigitAscii && decide (s.length ≤ 3) &&
  (s == ['0'] || s.headD '0' != '0') && decide (parseDecNat s ≤ 255)

/-- `IPv4Address._ip_int_from_string`: exactly four valid octets. -/
def validIPv4 (s : List Char) : Bool :=
  let octets := splitOnChar '.' s
  octets.length == 4 && octets.all validOctet

/-- `IPv6Address._parse_hextet`: non-empty, all hex digits, at most 4. -/
def validHextet (s : List Char) : Bool :=
  !s.isEmpty && s.all isHexDigitAscii && decide (s.length ≤ 4)

/-- The part-list acceptance of `IPv6Address._ip_int_from_string` after the
embedded-IPv4 conversion: at most 9 parts; at most one empty interior part
(`::`); with one, an empty first (resp. last) part forces the gap right
after it (resp. right before it), at least one group is skipped
(`parts_hi + parts_lo <= 7`) and the surviving parts are valid hextets;
with none, exactly 8 valid hextets. -/
def validIPv6Parts (parts : List (List Char)) : Bool :=
  let n := parts.length
  if 9 < n then false
  else
    match (List.range' 1 (n - 2)).filter (fun i => (parts.getD i [' ']).isEmpty) with
    | [] => n == 8 && parts.all validHextet
    | [i] =>
      let hi := if (parts.getD 0 [' ']).isEmpty then i - 1 else i
      let lo := if (parts.getD (n - 1) [' ']).isEmpty then n - i - 2 else n - i - 1
      (!(parts.getD 0 [' ']).isEmpty || i == 1) &&
      (!(parts.getD (n - 1) [' ']).isEmpty || i == n - 2) &&
      decide (hi + lo ≤ 7) &&
      (parts.take hi).all validHextet &&
      (parts.drop (n - lo)).all validHextet
    | _ => false

/-- `IPv6Address._ip_int_from_string` on the address part (no scope id):
non-empty, split on `:` into at least 3 parts; a last part containing `.`
must be a valid IPv4 address and is replaced by two (always valid) dummy
hextets; then the part-list check above. -/
def validIPv6Core (s : List Char) : Bool :=
  if s.isEmpty then false
  else
    let parts0 := splitOnChar ':' s
    if parts0.length < 3 then false
    else if (parts0.getLastD []).contains '.' then
      if validIPv4 (parts0.getLastD []) then
        validIPv6Parts (parts0.dropLast ++ [['0'], ['0']])
      else false
    else validIPv6Parts parts0

/-- `IPv6Address.__init__` on a string: rejects `/`; `_split_scope_id`
partitions at the first `%`, and a present scope id must be non-empty and
`%`-free; the address part must parse as IPv6. -/
def validIPv6Full (host : List Char) : Bool :=
  if host.contains '/' then false
  else
    let addr := host.takeWhile fun c => !(c = '%')
    if addr.length == host.length then validIPv6Core addr
    else
      let scope := host.drop (addr.length + 1)
      !scope.isEmpty && !scope.contains '%' && validIPv6Core addr

/-- The IPvFuture regex of `_check_bracketed_host`,
`\Av[a-fA-F0-9]+\..+\Z`: `v`, then at least one hex digit, then `.`, then
at least one further character (`.` cannot match a newline, but tab, CR
and LF were already removed from the URL). -/
def isIPvFutureHost (host : List Char) : Bool :=
  match host with
  | 'v' :: rest =>
    let hex := rest.takeWhile isHexDigitAscii
    !hex.isEmpty &&
      (match rest.drop hex.length with
       | '.' :: tail => !tail.isEmpty
       | _ => false)
  | _ => false

/-- `_check_bracketed_host` (CPython >= 3.11.4): a host starting with `v`
must match the IPvFuture regex; otherwise `ipaddress.ip_address` must
accept it and not return an IPv4 address.  A valid IPv4 string contains no
`:` and so is never a valid IPv6 string, hence the second branch is
exactly IPv6 validity. -/
def validBracketedHost (host : List Char) : Bool :=
  match host with
  | 'v' :: _ => isIPvFutureHost host
  | _ => validIPv6Full host

/-- `netloc.partition('[')[2].partition(']')[0]`: the characters after the
first `[` up to the next `]`. -/
def bracketedHostOf (netloc : List Char) : List Char :=
  ((netloc.dropWhile fun c => !(c = '[')).drop 1).takeWhile fun c => !(c = ']')

/-- The `urlparse` failures reachable here (the `except Exception` branch
of `extract_domain_from_url`): `urlsplit` raises `ValueError` when the
netloc has a `[` without `]` or vice versa, or (CPython >= 3.11.4) when a
bracketed host is neither a valid IPv6 address nor an IPvFuture literal. -/
def urlsplitFails (netloc : List Char) : Bool :=
  if (netloc.contains '[') != (netloc.contains ']') then true
  else if netloc.contains '[' then !validBracketedHost (bracketedHostOf netloc)
  else false

/-- `extract_domain_from_url` (lines 15-36): lower-case the netloc and strip
the first matching known subdomain marker. -/
def extract_domain_from_url (url : String) : Option String :=
  if url = "" then none
  else
    let netloc := netlocOf url
    if urlsplitFails netloc then none
    else
      let domain := pyLower netloc
      match domain_prefixes.find? (fun p => p.data.isPrefixOf domain) with
      | some p => some ⟨domain.drop p.length⟩
      | none => some ⟨domain⟩

/-- `extract_company_name_from_domain` (lines 38-51): drop the first matching
TLD marker, delete all non-alphanumeric characters, lower-case; `none` when
nothing remains. -/
def extract_company_name_from_domain (domain : String) : Option String :=
  if domain = "" then none
  else
    let d := match domain_suffixes.find? (fun suf => strEndsWith domain suf) with
             | some suf => strDropRight domain suf.length
             | none => domain
    let cleaned := d.data.filter isAlnumAscii
    if cleaned.isEmpty then none else some (pyLowerStr ⟨cleaned⟩)

/-! ## Data model

Records are Python dicts read with `dict.get(key, '')`; an absent or `None`
field and an empty string are indistinguishable to every use site (all
checks are truthiness checks), so fields are plain `String`s with `""` for
"absent". -/

/-- A customer account record. -/
structure CustomerAccount where
  Id : String
  Name : String
  Website : String
  BillingCity : String
  BillingState : String
  BillingCountry : String
  BillingPostalCode : String
deriving DecidableEq, Repr

/-- A shell (ZI-enriched) account record. -/
structure ShellAccount where
  Id : String
  ZI_Company_Name__c : String
  ZI_Website__c : String
  ZI_Company_Country__c : String
  ZI_Company_State__c : String
  ZI_Company_City__c : String
  ZI_Company_Postal_Code__c : String
deriving DecidableEq, Repr

/-! ## Similarity scorer -/

/-- `compute_website_match` (lines 99-136), score component.  Every early
`return 0.0, reason` branch is a `0`; the explanation strings (which carry
`%.1f`-formatted floats) are not modelled. -/
def compute_website_match (customer_website shell_zi_website : String) : ℚ :=
  if customer_website = "" then 0
  else if shell_zi_website = "" then 0
  else
    match extract_domain_from_url customer_website with
    | none => 0
    | some customer_domain =>
      if customer_domain = "" then 0
      else
        match extract_domain_from_url shell_zi_website with
        | none => 0
        | some shell_domain =>
          if shell_domain = "" then 0
          else
            match extract_company_name_from_domain customer_domain with
            | none => 0
            | some customer_company =>
              match extract_company_name_from_domain shell_domain with
              | none => 0
              | some shell_company =>
                compute_fuzzy_similarity customer_company shell_company * 100

/-- `compute_name_match` (lines 138-159), score component. -/
def compute_name_match (customer_name shell_zi_name : String) : ℚ :=
  if customer_name = "" then 0
  else if shell_zi_name = "" then 0
  else compute_fuzzy_similarity customer_name shell_zi_name * 100

/-- `.strip().lower()` applied to each address field before comparison. -/
def cleanField (s : String) : String := pyLowerStr (pyStrip s)

/-- Score / match-list / mismatch-list computed by
`compute_address_consistency_score` (lines 161-227).  The postal-code block
reproduces the source exactly: its `else:` is indented to the OUTER
`if customer_postal and shell_postal:`, so an unequal postal pair appends
nothing, while a pair with a missing side appends a mismatch. -/
def addressBreakdown (customer : CustomerAccount) (shell : ShellAccount) :
    ℚ × List String × List String :=
  let cc := cleanField customer.BillingCountry
  let sc := cleanField shell.ZI_Company_Country__c
  let country : ℚ × List String × List String :=
    if cc ≠ "" ∧ sc ≠ "" then
      if cc = sc then (30, ["Country: " ++ cc], [])
      else (0, [], ["Country: " ++ cc ++ " ≠ " ++ sc])
    else (0, [], [])
  let cs := cleanField customer.BillingState
  let ss := cleanField shell.ZI_Company_State__c
  let state : ℚ × List String × List String :=
    if cs ≠ "" ∧ ss ≠ "" then
      if cs = ss then (30, ["State: " ++ cs], [])
      else (0, [], ["State: " ++ cs ++ " ≠ " ++ ss])
    else (0, [], [])
  let ci := cleanField customer.BillingCity
  let si := cleanField shell.ZI_Company_City__c
  let city : ℚ × List String × List String :=
    if ci ≠ "" ∧ si ≠ "" then
      if ci = si then (30, ["City: " ++ ci], [])
      else (0, [], ["City: " ++ ci ++ " ≠ " ++ si])
    else (0, [], [])
  let cp := cleanField customer.BillingPostalCode
  let sp := cleanField shell.ZI_Company_Postal_Code__c
  let postal : ℚ × List String × List String :=
    if cp ≠ "" ∧ sp ≠ "" then
      if cp = sp then (10, ["Postal: " ++ cp], [])
      else (0, [], [])
    else (0, [], ["Postal: " ++ cp ++ " ≠ " ++ sp])
  (country.1 + state.1 + city.1 + postal.1,
   country.2.1 ++ state.2.1 ++ city.2.1 ++ postal.2.1,
   country.2.2 ++ state.2.2 ++ city.2.2 ++ postal.2.2)

/-- `compute_address_consistency_score` (lines 161-227): score plus the
assembled explanation string. -/
def compute_address_consistency_score (customer : CustomerAccount)
    (shell : ShellAccount) : ℚ × String :=
  let b := addressBreakdown customer shell
  let parts :=
    (if b.2.1.isEmpty then [] else
      ["Matches: " ++ String.intercalate (", ") b.2.1]) ++
    (if b.2.2.isEmpty then [] else
      ["Mismatches: " ++ String.intercalate (", ") b.2.2])
  (b.1, if parts.isEmpty then "No address data to compare"
        else String.intercalate ("; ") parts)

/-- The three signal scores plus the combined overall score returned by
`compute_overall_similarity` (the `explanations` sub-dict is not modelled). -/
structure SimilarityScores where
  website_match : ℚ
  name_match : ℚ
  address_consistency : ℚ
  overall_score : ℚ
deriving DecidableEq, Repr

/-- The uncapped combination `primary_score + secondary_score + geo_score`
from `compute_overall_similarity` (lines 342-361): website branch when both
sides have a website, else name branch when both sides have a name, else the
address-only branch; the geography term is added in every branch. -/
def overallRaw (customer : CustomerAccount) (shell : ShellAccount) : ℚ :=
  let website_score := compute_website_match customer.Website shell.ZI_Website__c
  let name_score := compute_name_match customer.Name shell.ZI_Company_Name__c
  let address_score := (compute_address_consistency_score customer shell).1
  let primary_secondary : ℚ × ℚ :=
    if customer.Website ≠ "" ∧ shell.ZI_Website__c ≠ "" then
      (website_score * 0.6, name_score * 0.3)
    else if customer.Name ≠ "" ∧ shell.ZI_Company_Name__c ≠ "" then
      (name_score * 0.6, 0)
    else
      (address_score * 0.6 / 100, 0)
  let geo_score := address_score * 0.1 / 100
  primary_secondary.1 + primary_secondary.2 + geo_score

/-- `compute_overall_similarity` (lines 322-373). -/
def compute_overall_similarity (customer : CustomerAccount)
    (shell : ShellAccount) : SimilarityScores :=
  ⟨compute_website_match customer.Website shell.ZI_Website__c,
   compute_name_match customer.Name shell.ZI_Company_Name__c,
   (compute_address_consistency_score customer shell).1,
   min (overallRaw customer shell) 100⟩

/-! ## Candidate index (`create_hash_buckets` / `fast_filter_candidates`) -/

/-- Buckets are Python dicts (insertion-ordered), modelled as association
lists in insertion order. -/
structure HashBuckets where
  website_buckets : List (String × List ShellAccount)
  name_buckets : List (String × List ShellAccount)
deriving Repr

/-- `buckets.setdefault(key, []).append(shell)`: append to the key's list,
creating the key at the end on first use (dict insertion order). -/
def bucketAdd (bs : List (String × List ShellAccount)) (key : String)
    (sh : ShellAccount) : List (String × List ShellAccount) :=
  match bs with
  | [] => [(key, [sh])]
  | (k, l) :: rest =>
    if k = key then (k, l ++ [sh]) :: rest
    else (k, l) :: bucketAdd rest key sh

/-- `buckets[key]` with the `key in buckets` guard: `[]` when absent. -/
def bucketGet (bs : List (String × List ShellAccount)) (key : String) :
    List ShellAccount :=
  match bs.find? (fun kv => kv.1 == key) with
  | some kv => kv.2
  | none => []

/-- The domain-derived company token of a website field, as computed in both
`create_hash_buckets` and `fast_filter_candidates` (each `if x:` truthiness
guard of the source is an `= ""` / `Option` test here). -/
def domainTokenOf (website : String) : Option String :=
  if website = "" then none
  else
    match extract_domain_from_url website with
    | none => none
    | some domain =>
      if domain = "" then none
      else extract_company_name_from_domain domain

/-- The normalized-name tokens of a name field (`normalized_name.split()`),
with the source's truthiness guards on the name and its normalization. -/
def nameTokensOf (name : String) : List String :=
  if name = "" then []
  else
    let normalized := normalize_company_name name
    if normalized = "" then []
    else (splitWs normalized.data).map fun w => (⟨w⟩ : String)

/-- `create_hash_buckets` (lines 231-269). -/
def create_hash_buckets (shell_accounts : List ShellAccount) : HashBuckets :=
  shell_accounts.foldl
    (fun hb sh =>
      let wb := match domainTokenOf sh.ZI_Website__c with
                | some tok => bucketAdd hb.website_buckets tok sh
                | none => hb.website_buckets
      let nb := (nameTokensOf sh.ZI_Company_Name__c).foldl
                  (fun nb tok =>
                    if 2 < tok.length then bucketAdd nb tok sh else nb)
                  hb.name_buckets
      ⟨wb, nb⟩)
    ⟨[], []⟩

/-- `candidates.add(id)` on the Python set of candidate identifiers: the set
is only ever used for membership tests and its size, so it is a duplicate-free
list (insertion order irrelevant). -/
def insertId (ids : List String) (id : String) : List String :=
  if id ∈ ids then ids else id :: ids

/-- STEP 1 of `fast_filter_candidates`: identifiers from the customer's
domain-token bucket (website precedence). -/
def websiteCandidateIds (customer : CustomerAccount) (hb : HashBuckets) :
    List String :=
  match domainTokenOf customer.Website with
  | some tok =>
    (bucketGet hb.website_buckets tok).foldl (fun ids sh => insertId ids sh.Id) []
  | none => []

/-- One iteration of the STEP-2 name-token loop of `fast_filter_candidates`:
tokens longer than 2 characters pull in their whole name bucket. -/
def nameTokenStep (hb : HashBuckets) (ids : List String) (tok : String) :
    List String :=
  if 2 < tok.length then
    (bucketGet hb.name_buckets tok).foldl (fun ids sh => insertId ids sh.Id) ids
  else ids

/-- STEP 1 + STEP 2 of `fast_filter_candidates`: name-token buckets are
consulted only when the customer has a name and fewer than 10 candidates were
collected from the website bucket. -/
def candidateIds (customer : CustomerAccount) (hb : HashBuckets) : List String :=
  let ids := websiteCandidateIds customer hb
  if customer.Name ≠ "" ∧ ids.length < 10 then
    (nameTokensOf customer.Name).foldl (nameTokenStep hb) ids
  else ids

/-- `all_shells` of `fast_filter_candidates`: every bucket list of both maps,
website buckets first, in insertion order. -/
def allBucketShells (hb : HashBuckets) : List ShellAccount :=
  (hb.website_buckets.map fun kv => kv.2).flatten ++
  (hb.name_buckets.map fun kv => kv.2).flatten

/-- The final loop of `fast_filter_candidates`: walk `all_shells`, keep the
records whose identifier is a candidate, deduplicating by identifier with the
`seen_ids` set. -/
def dedupFilter (cands : List String) :
    List ShellAccount → List String → List ShellAccount
  | [], _ => []
  | sh :: rest, seen =>
    if sh.Id ∈ cands ∧ sh.Id ∉ seen then
      sh :: dedupFilter cands rest (sh.Id :: seen)
    else dedupFilter cands rest seen

/-- `fast_filter_candidates` (lines 271-320). -/
def fast_filter_candidates (customer : CustomerAccount) (hb : HashBuckets) :
    List ShellAccount :=
  dedupFilter (candidateIds customer hb) (allBucketShells hb) []

/-! ## Ranking engine -/

/-- One scored candidate of `rank_shell_candidates` (`rank_score` is the
`overall_score`, duplicated in the source dict). -/
structure RankedCandidate where
  shell_account : ShellAccount
  scores : SimilarityScores
deriving Repr

/-- `rank_shell_candidates` (lines 375-395): score every candidate, sort by
`overall_score` descending (Python's stable `list.sort(reverse=True)`). -/
def rank_shell_candidates (customer : CustomerAccount)
    (candidates : List ShellAccount) : List RankedCandidate :=
  (candidates.map fun sh =>
    (⟨sh, compute_overall_similarity customer sh⟩ : RankedCandidate)).mergeSort
    fun x y => decide (y.scores.overall_score ≤ x.scores.overall_score)

/-- Result of `find_best_shell_match`: the source returns a dict with
`success`, `message` and either `best_match = None` (failure) or the best
candidate plus `candidate_count` / `total_shells`. -/
inductive MatchOutcome where
  | failure (message : String)
  | success (best : RankedCandidate) (candidate_count total_shells : Nat)
deriving Repr

/-- `success` field of the returned dict. -/
def MatchOutcome.isSuccess : MatchOutcome → Bool
  | .failure _ => false
  | .success _ _ _ => true

/-- `find_best_shell_match` (lines 397-444). -/
def find_best_shell_match (customer : CustomerAccount)
    (shell_accounts : List ShellAccount) : MatchOutcome :=
  if shell_accounts.isEmpty then .failure ("No shell accounts provided")
  else
    let hash_buckets := create_hash_buckets shell_accounts
    let filtered := fast_filter_candidates customer hash_buckets
    let candidates := if filtered.isEmpty then shell_accounts else filtered
    match rank_shell_candidates customer candidates with
    | [] => .failure ("No viable shell candidates found")
    | best :: _ => .success best candidates.length shell_accounts.length

/-! ## Result assembler (`excel_service.py`, `create_matching_results_export`,
lines 262-341: the row-assembly core; spreadsheet rendering, score columns and
address formatting are presentation-only and not modelled). -/

/-- One element of `matched_pairs` (only the fields the assembly logic reads). -/
structure MatchedPair where
  customer_account : CustomerAccount
deriving Repr

/-- One element of `unmatched_customers`. -/
structure UnmatchedCustomer where
  customer_account : CustomerAccount
  reason : String
deriving Repr

/-- One output row: the customer display name used as the sort key, and the
`status` cell. -/
structure ResultRow where
  customerName : String
  status : String
deriving DecidableEq, Repr

/-- The row assembly of `create_matching_results_export`: one row per element
of each input list with the list's status, then sorted by customer name
(`all_customer_results.sort(key=lambda x: x['customer'].get('Name', ''))`;
invalid identifiers get the placeholder name `INVALID ACCOUNT ID`). -/
def create_matching_results_export (matched_pairs : List MatchedPair)
    (unmatched_customers : List UnmatchedCustomer)
    (flagged_customers : List CustomerAccount)
    (invalid_customers : List String) : List ResultRow :=
  let rows :=
    (matched_pairs.map fun p =>
      (⟨p.customer_account.Name, "MATCHED"⟩ : ResultRow)) ++
    (unmatched_customers.map fun u =>
      (⟨u.customer_account.Name, "UNMATCHED"⟩ : ResultRow)) ++
    (flagged_customers.map fun c => (⟨c.Name, "FLAGGED"⟩ : ResultRow)) ++
    (invalid_customers.map fun _id =>
      (⟨"INVALID ACCOUNT ID", "INVALID"⟩ : ResultRow))
  rows.mergeSort fun a b => decide (a.customerName ≤ b.customerName)


/-! ## Lemmas about the `SequenceMatcher` embedding -/

theorem runlen_le_left (a b : List Char) (alo blo : Nat) :
    ∀ i j, runlen a b alo blo i j ≤ i - alo + 1 := by
  intro i
  induction i with
  | zero =>
    intro j
    cases j with
    | zero => simp only [runlen]; split <;> (try split) <;> omega
    | succ j => simp only [runlen]; split <;> (try split) <;> omega
  | succ i ih =>
    intro j
    cases j with
    | zero => simp only [runlen]; split <;> (try split) <;> omega
    | succ j =>
      simp only [runlen]
      split
      · split
        · split
          · have := ih j
            omega
          · omega
        · omega
      · omega

theorem runlen_le_right (a b : List Char) (alo blo : Nat) :
    ∀ i j, runlen a b alo blo i j ≤ j - blo + 1 := by
  intro i
  induction i with
  | zero =>
    intro j
    cases j with
    | zero => simp only [runlen]; split <;> (try split) <;> omega
    | succ j => simp only [runlen]; split <;> (try split) <;> omega
  | succ i ih =>
    intro j
    cases j with
    | zero => simp only [runlen]; split <;> (try split) <;> omega
    | succ j =>
      simp only [runlen]
      split
      · split
        · split
          · have := ih j
            omega
          · omega
        · omega
      · omega

theorem mem_scanPairs {alo ahi blo bhi : Nat} {p : Nat × Nat}
    (h : p ∈ scanPairs alo ahi blo bhi) :
    alo ≤ p.1 ∧ p.1 < ahi ∧ blo ≤ p.2 ∧ p.2 < bhi := by
  simp only [scanPairs, List.mem_flatMap, List.mem_map, List.mem_range'_1] at h
  obtain ⟨i, hi, j, hj, rfl⟩ := h
  exact ⟨hi.1, by omega, hj.1, by omega⟩

/-- Invariant carried by the best-so-far state of `find_longest_match`. -/
def flmInv (alo ahi blo bhi : Nat) (st : Nat × Nat × Nat) : Prop :=
  st = (alo, blo, 0) ∨
    (alo ≤ st.1 ∧ st.1 < ahi ∧ blo ≤ st.2.1 ∧ st.2.1 < bhi ∧ 1 ≤ st.2.2 ∧
     st.2.2 ≤ st.1 - alo + 1 ∧ st.2.2 ≤ st.2.1 - blo + 1)

theorem foldl_flmStep_inv (a b : List Char) (alo ahi blo bhi : Nat)
    (l : List (Nat × Nat)) (hl : ∀ p ∈ l, p ∈ scanPairs alo ahi blo bhi)
    (init : Nat × Nat × Nat) (h0 : flmInv alo ahi blo bhi init) :
    flmInv alo ahi blo bhi (l.foldl (flmStep a b alo blo) init) := by
  induction l generalizing init with
  | nil => exact h0
  | cons p rest ih =>
    refine ih (fun q hq => hl q (List.mem_cons_of_mem _ hq)) _ ?_
    have hp := mem_scanPairs (hl p (List.mem_cons_self _ _))
    simp only [flmStep]
    split
    · rename_i hk
      right
      refine ⟨hp.1, hp.2.1, hp.2.2.1, hp.2.2.2, ?_,
        runlen_le_left a b alo blo p.1 p.2, runlen_le_right a b alo blo p.1 p.2⟩
      show 1 ≤ runlen a b alo blo p.1 p.2
      omega
    · exact h0

theorem flm_bounds (a b : List Char) (alo ahi blo bhi : Nat) :
    (flm a b alo ahi blo bhi).2.2 = 0 ∨
    (1 ≤ (flm a b alo ahi blo bhi).2.2 ∧
     alo ≤ (flm a b alo ahi blo bhi).1 ∧
     (flm a b alo ahi blo bhi).1 + (flm a b alo ahi blo bhi).2.2 ≤ ahi ∧
     blo ≤ (flm a b alo ahi blo bhi).2.1 ∧
     (flm a b alo ahi blo bhi).2.1 + (flm a b alo ahi blo bhi).2.2 ≤ bhi) := by
  have hinv := foldl_flmStep_inv a b alo ahi blo bhi
    (scanPairs alo ahi blo bhi) (fun p hp => hp) (alo, blo, 0) (Or.inl rfl)
  revert hinv
  simp only [flm, flmInv]
  generalize (scanPairs alo ahi blo bhi).foldl (flmStep a b alo blo)
    (alo, blo, 0) = F
  obtain ⟨i, j, k⟩ := F
  intro hinv
  dsimp only at hinv ⊢
  rcases hinv with h | h
  · simp only [Prod.mk.injEq] at h
    obtain ⟨rfl, rfl, rfl⟩ := h
    simp
  · obtain ⟨hia, hib, hja, hjb, hk1, hk2, hk3⟩ := h
    rw [if_neg (by omega)]
    right
    dsimp only
    refine ⟨hk1, by omega, by omega, by omega, by omega⟩

theorem matchesIn_le_left (a b : List Char) :
    ∀ fuel alo ahi blo bhi, matchesIn a b fuel alo ahi blo bhi ≤ ahi - alo := by
  intro fuel
  induction fuel with
  | zero => intro alo ahi blo bhi; simp [matchesIn]
  | succ fuel ih =>
    intro alo ahi blo bhi
    simp only [matchesIn]
    rcases flm_bounds a b alo ahi blo bhi with h | h
    · rw [if_pos h]; omega
    · obtain ⟨h1, h2, h3, h4, h5⟩ := h
      rw [if_neg (by omega)]
      have t1 := ih alo (flm a b alo ahi blo bhi).1 blo (flm a b alo ahi blo bhi).2.1
      have t2 := ih ((flm a b alo ahi blo bhi).1 + (flm a b alo ahi blo bhi).2.2)
        ahi ((flm a b alo ahi blo bhi).2.1 + (flm a b alo ahi blo bhi).2.2) bhi
      split <;> split <;> omega

theorem matchesIn_le_right (a b : List Char) :
    ∀ fuel alo ahi blo bhi, matchesIn a b fuel alo ahi blo bhi ≤ bhi - blo := by
  intro fuel
  induction fuel with
  | zero => intro alo ahi blo bhi; simp [matchesIn]
  | succ fuel ih =>
    intro alo ahi blo bhi
    simp only [matchesIn]
    rcases flm_bounds a b alo ahi blo bhi with h | h
    · rw [if_pos h]; omega
    · obtain ⟨h1, h2, h3, h4, h5⟩ := h
      rw [if_neg (by omega)]
      have t1 := ih alo (flm a b alo ahi blo bhi).1 blo (flm a b alo ahi blo bhi).2.1
      have t2 := ih ((flm a b alo ahi blo bhi).1 + (flm a b alo ahi blo bhi).2.2)
        ahi ((flm a b alo ahi blo bhi).2.1 + (flm a b alo ahi blo bhi).2.2) bhi
      split <;> split <;> omega

theorem seqMatches_le_left (a b : List Char) : seqMatches a b ≤ a.length := by
  have := matchesIn_le_left a b (a.length + 1) 0 a.length 0 b.length
  simpa [seqMatches] using this

theorem seqMatches_le_right (a b : List Char) : seqMatches a b ≤ b.length := by
  have := matchesIn_le_right a b (a.length + 1) 0 a.length 0 b.length
  simpa [seqMatches] using this

theorem ratioQ_nonneg (a b : List Char) : 0 ≤ ratioQ a b := by
  unfold ratioQ
  split
  · norm_num
  · positivity

theorem ratioQ_le_one (a b : List Char) : ratioQ a b ≤ 1 := by
  unfold ratioQ
  split
  · norm_num
  · rename_i h
    apply div_le_one_of_le₀
    · have h1 := seqMatches_le_left a b
      have h2 := seqMatches_le_right a b
      have ha : (seqMatches a b : ℚ) ≤ a.length := by exact_mod_cast h1
      have hb : (seqMatches a b : ℚ) ≤ b.length := by exact_mod_cast h2
      linarith
    · positivity


theorem runlen_diag (a : List Char) : ∀ i, i < a.length → runlen a a 0 0 i i = i + 1 := by
  intro i
  induction i with
  | zero =>
    intro h
    simp [runlen, List.getElem?_eq_getElem h]
  | succ i ih =>
    intro h
    have hi : i < a.length := by omega
    simp [runlen, List.getElem?_eq_getElem h, ih hi]

theorem foldl_flmStep_le (a b : List Char) (alo blo B : Nat) :
    ∀ (l : List (Nat × Nat)) (init : Nat × Nat × Nat), init.2.2 ≤ B →
      (∀ p ∈ l, runlen a b alo blo p.1 p.2 ≤ B) →
      (l.foldl (flmStep a b alo blo) init).2.2 ≤ B := by
  intro l
  induction l with
  | nil => intro init h _; exact h
  | cons p rest ih =>
    intro init h hl
    simp only [List.foldl_cons]
    apply ih
    · simp only [flmStep]
      split
      · exact hl p (List.mem_cons_self _ _)
      · exact h
    · intro q hq
      exact hl q (List.mem_cons_of_mem _ hq)

theorem flm_self (a : List Char) (h : a ≠ []) :
    flm a a 0 a.length 0 a.length = (0, 0, a.length) := by
  obtain ⟨m, hm⟩ : ∃ m, a.length = m + 1 := by
    cases a with
    | nil => exact absurd rfl h
    | cons x xs => exact ⟨xs.length, rfl⟩
  have hrange : List.range' 0 (m + 1) = List.range' 0 m ++ [m] := by
    simpa using @List.range'_concat 1 0 m
  have hdec : scanPairs 0 a.length 0 a.length =
      (((List.range' 0 m).flatMap fun i =>
          (List.range' 0 m ++ [m]).map fun j => (i, j)) ++
        ((List.range' 0 m).map fun j => ((m : Nat), j))) ++ [(m, m)] := by
    simp only [scanPairs, hm, Nat.sub_zero]
    rw [hrange, List.flatMap_append]
    simp only [List.flatMap_cons, List.flatMap_nil, List.append_nil]
    rw [List.map_append]
    simp [List.append_assoc]
  have hmem : ∀ p ∈ (((List.range' 0 m).flatMap fun i =>
          (List.range' 0 m ++ [m]).map fun j => (i, j)) ++
        ((List.range' 0 m).map fun j => ((m : Nat), j))),
      runlen a a 0 0 p.1 p.2 ≤ m := by
    intro p hp
    rcases List.mem_append.1 hp with hp | hp
    · simp only [List.mem_flatMap, List.mem_map, List.mem_range'_1] at hp
      obtain ⟨i, hi, j, hj, rfl⟩ := hp
      show runlen a a 0 0 i j ≤ m
      have := runlen_le_left a a 0 0 i j
      omega
    · simp only [List.mem_map, List.mem_range'_1] at hp
      obtain ⟨j, hj, rfl⟩ := hp
      show runlen a a 0 0 m j ≤ m
      have := runlen_le_right a a 0 0 m j
      omega
  unfold flm
  rw [hdec, List.foldl_append]
  have hB := foldl_flmStep_le a a 0 0 m
    (((List.range' 0 m).flatMap fun i =>
        (List.range' 0 m ++ [m]).map fun j => (i, j)) ++
      ((List.range' 0 m).map fun j => ((m : Nat), j)))
    (0, 0, 0) (by simp) hmem
  generalize hF : List.foldl (flmStep a a 0 0) (0, 0, 0)
      (((List.range' 0 m).flatMap fun i =>
          (List.range' 0 m ++ [m]).map fun j => (i, j)) ++
        ((List.range' 0 m).map fun j => ((m : Nat), j))) = F
  rw [hF] at hB
  have hrm : runlen a a 0 0 m m = m + 1 := runlen_diag a m (by omega)
  simp only [List.foldl_cons, List.foldl_nil]
  have hstep : flmStep a a 0 0 F (m, m) = (m, m, m + 1) := by
    simp only [flmStep]
    rw [hrm, if_pos (by omega)]
  rw [hstep]
  rw [if_neg (by simp)]
  simp [hm]

theorem matchesIn_self (a : List Char) (h : a ≠ []) (fuel : Nat) :
    matchesIn a a (fuel + 1) 0 a.length 0 a.length = a.length := by
  have hlen : a.length ≠ 0 := by
    cases a with
    | nil => exact absurd rfl h
    | cons x xs => simp
  simp only [matchesIn, flm_self a h]
  rw [if_neg hlen]
  rw [if_neg (by omega), if_neg (by omega)]
  omega

theorem seqMatches_self (a : List Char) : seqMatches a a = a.length := by
  by_cases h : a = []
  · subst h
    rfl
  · exact matchesIn_self a h a.length

theorem ratioQ_self (a : List Char) : ratioQ a a = 1 := by
  by_cases h : a = []
  · subst h
    rfl
  · have hlen : a.length ≠ 0 := by
      cases a with
      | nil => exact absurd rfl h
      | cons x xs => simp
    unfold ratioQ
    rw [if_neg (by omega), seqMatches_self]
    have hq : ((a.length : ℚ)) ≠ 0 := by exact_mod_cast hlen
    field_simp
    ring


/-! ## Bounds of the fuzzy-similarity and signal scores -/

theorem compute_fuzzy_similarity_nonneg (s1 s2 : String) :
    0 ≤ compute_fuzzy_similarity s1 s2 := by
  simp only [compute_fuzzy_similarity]
  split
  · norm_num
  · split
    · norm_num
    · exact ratioQ_nonneg _ _

theorem compute_fuzzy_similarity_le_one (s1 s2 : String) :
    compute_fuzzy_similarity s1 s2 ≤ 1 := by
  simp only [compute_fuzzy_similarity]
  split
  · norm_num
  · split
    · norm_num
    · exact ratioQ_le_one _ _

theorem compute_fuzzy_similarity_eq_zero {s1 s2 : String}
    (h : normalize_company_name s1 = "" ∨ normalize_company_name s2 = "") :
    compute_fuzzy_similarity s1 s2 = 0 := by
  by_cases hempty : s1 = "" ∨ s2 = ""
  · simp only [compute_fuzzy_similarity, if_pos hempty]
  · simp only [compute_fuzzy_similarity, if_neg hempty, if_pos h]

theorem compute_fuzzy_similarity_eq_one {s1 s2 : String}
    (h : normalize_company_name s1 = normalize_company_name s2)
    (hne : normalize_company_name s1 ≠ "") :
    compute_fuzzy_similarity s1 s2 = 1 := by
  have h1 : s1 ≠ "" := by
    intro e
    subst e
    exact hne (by rfl)
  have h2 : s2 ≠ "" := by
    intro e
    subst e
    rw [show normalize_company_name "" = "" from rfl] at h
    exact hne h
  simp only [compute_fuzzy_similarity]
  rw [if_neg (by tauto), if_neg (by rw [h]; rw [h] at hne; tauto)]
  rw [h]
  exact ratioQ_self _

theorem mul100_nonneg {q : ℚ} (h : 0 ≤ q) : 0 ≤ q * 100 :=
  mul_nonneg h (by norm_num)

theorem mul100_le_100 {q : ℚ} (h : q ≤ 1) : q * 100 ≤ 100 := by linarith

theorem compute_website_match_bounds (cw sw : String) :
    0 ≤ compute_website_match cw sw ∧ compute_website_match cw sw ≤ 100 := by
  constructor <;>
  · simp only [compute_website_match]
    repeat' split
    all_goals
      first
      | exact mul100_nonneg (compute_fuzzy_similarity_nonneg _ _)
      | exact mul100_le_100 (compute_fuzzy_similarity_le_one _ _)
      | norm_num

theorem compute_name_match_bounds (cn sn : String) :
    0 ≤ compute_name_match cn sn ∧ compute_name_match cn sn ≤ 100 := by
  constructor <;>
  · simp only [compute_name_match]
    repeat' split
    all_goals
      first
      | exact mul100_nonneg (compute_fuzzy_similarity_nonneg _ _)
      | exact mul100_le_100 (compute_fuzzy_similarity_le_one _ _)
      | norm_num

theorem addressBreakdown_score_bounds (c : CustomerAccount) (s : ShellAccount) :
    0 ≤ (addressBreakdown c s).1 ∧ (addressBreakdown c s).1 ≤ 100 := by
  simp only [addressBreakdown]
  split_ifs <;> norm_num

theorem address_score_bounds (c : CustomerAccount) (s : ShellAccount) :
    0 ≤ (compute_address_consistency_score c s).1 ∧
    (compute_address_consistency_score c s).1 ≤ 100 := by
  have h : (compute_address_consistency_score c s).1 = (addressBreakdown c s).1 := rfl
  rw [h]
  exact addressBreakdown_score_bounds c s

theorem overallRaw_bounds (c : CustomerAccount) (s : ShellAccount) :
    0 ≤ overallRaw c s ∧ overallRaw c s ≤ 901 / 10 := by
  obtain ⟨hw0, hw1⟩ := compute_website_match_bounds c.Website s.ZI_Website__c
  obtain ⟨hn0, hn1⟩ := compute_name_match_bounds c.Name s.ZI_Company_Name__c
  obtain ⟨ha0, ha1⟩ := address_score_bounds c s
  simp only [overallRaw]
  split_ifs <;> constructor <;> (dsimp only) <;> linarith

/-- Field equations of `compute_overall_similarity` (definitional). -/
theorem overall_website_field (c : CustomerAccount) (s : ShellAccount) :
    (compute_overall_similarity c s).website_match =
      compute_website_match c.Website s.ZI_Website__c := rfl

theorem overall_name_field (c : CustomerAccount) (s : ShellAccount) :
    (compute_overall_similarity c s).name_match =
      compute_name_match c.Name s.ZI_Company_Name__c := rfl

theorem overall_address_field (c : CustomerAccount) (s : ShellAccount) :
    (compute_overall_similarity c s).address_consistency =
      (compute_address_consistency_score c s).1 := rfl

theorem overall_score_field (c : CustomerAccount) (s : ShellAccount) :
    (compute_overall_similarity c s).overall_score =
      min (overallRaw c s) 100 := rfl

/-- Website branch of the combination rule, for any records with websites on
both sides. -/
theorem overall_branch_website (c : CustomerAccount) (s : ShellAccount)
    (h : c.Website ≠ "" ∧ s.ZI_Website__c ≠ "") :
    (compute_overall_similarity c s).overall_score =
      min (0.6 * (compute_overall_similarity c s).website_match +
           0.3 * (compute_overall_similarity c s).name_match +
           0.1 * ((compute_overall_similarity c s).address_consistency / 100))
        100 := by
  rw [overall_score_field, overall_website_field, overall_name_field,
    overall_address_field]
  simp only [overallRaw]
  rw [if_pos h]
  congr 1
  dsimp only
  ring


/-! ## Character-case lemmas for the ASCII `str.lower` -/

theorem charOfNat_toNat (n : Nat) (h1 : 97 ≤ n) (h2 : n ≤ 122) :
    (Char.ofNat n).toNat = n := by
  unfold Char.ofNat
  rw [dif_pos (Or.inl (by omega))]
  simp [Char.ofNatAux, Char.toNat, UInt32.toNat]

theorem pyLowerChar_noUpper (c : Char) :
    ¬('A' ≤ pyLowerChar c ∧ pyLowerChar c ≤ 'Z') := by
  unfold pyLowerChar
  split
  · rename_i h
    intro hc
    have h65 : 65 ≤ c.toNat := h.1
    have h90 : c.toNat ≤ 90 := h.2
    have ht := charOfNat_toNat (c.toNat + 32) (by omega) (by omega)
    have hlo : 65 ≤ (Char.ofNat (c.toNat + 32)).toNat := hc.1
    have hhi : (Char.ofNat (c.toNat + 32)).toNat ≤ 90 := hc.2
    omega
  · rename_i h
    exact h

theorem pyLowerChar_fix {c : Char} (h : ¬('A' ≤ c ∧ c ≤ 'Z')) :
    pyLowerChar c = c := by
  unfold pyLowerChar
  exact if_neg h

theorem pyLower_fix {l : List Char} (h : ∀ c ∈ l, ¬('A' ≤ c ∧ c ≤ 'Z')) :
    pyLower l = l := by
  induction l with
  | nil => rfl
  | cons c cs ih =>
    have hc := pyLowerChar_fix (h c (List.mem_cons_self _ _))
    have hcs := ih fun d hd => h d (List.mem_cons_of_mem _ hd)
    simp only [pyLower, List.map_cons] at hcs ⊢
    rw [hc, hcs]

theorem mem_pyLower_noUpper {l : List Char} {c : Char} (h : c ∈ pyLower l) :
    ¬('A' ≤ c ∧ c ≤ 'Z') := by
  unfold pyLower at h
  obtain ⟨d, _, rfl⟩ := List.mem_map.1 h
  exact pyLowerChar_noUpper d

/-! ## Sample records used by concrete witnesses -/

/-- The spec's address example customer (§8): Austin / TX / USA / 78701. -/
def sampleCustomer : CustomerAccount :=
  ⟨"0011", "Acme Corp", "https://www.acme.com", "Austin", "TX", "USA", "78701"⟩

/-- A shell agreeing with `sampleCustomer` on all four address fields. -/
def sampleShell : ShellAccount :=
  ⟨"0019", "Acme Corporation", "https://acme.io", "usa", "tx", "austin", "78701"⟩

/-- Same shell but postal code `78702` (the spec's partial-address example). -/
def sampleShellPostal : ShellAccount :=
  ⟨"0019", "Acme Corporation", "https://acme.io", "usa", "tx", "austin", "78702"⟩

/-- Same shell but no postal code at all. -/
def sampleShellNoPostal : ShellAccount :=
  ⟨"0019", "Acme Corporation", "https://acme.io", "usa", "tx", "austin", ""⟩

/-! ## Claims C4, C6, C10 (combination rule and bounds) -/

/-- **C4.** `compute_overall_similarity` follows the strict three-branch
precedence rule: with both websites present, `overall = min (0.6*website +
0.3*name + 0.1*(address/100)) 100`; else with both names present,
`overall = min (0.6*name + 0.1*(address/100)) 100`; else
`overall = min (0.6*(address/100) + 0.1*(address/100)) 100` — the geography
term is added in every branch and the result is capped at 100.  Consequently
(last conjunct), when both sides have websites, replacing the name fields by
any strings still yields the website-branch formula: the branch taken never
changes. -/
theorem claim_C4 (customer : CustomerAccount) (shell : ShellAccount) :
    ((customer.Website ≠ "" ∧ shell.ZI_Website__c ≠ "") →
      (compute_overall_similarity customer shell).overall_score =
        min (0.6 * (compute_overall_similarity customer shell).website_match +
             0.3 * (compute_overall_similarity customer shell).name_match +
             0.1 * ((compute_overall_similarity customer shell).address_consistency / 100))
          100) ∧
    (¬(customer.Website ≠ "" ∧ shell.ZI_Website__c ≠ "") →
      (customer.Name ≠ "" ∧ shell.ZI_Company_Name__c ≠ "") →
      (compute_overall_similarity customer shell).overall_score =
        min (0.6 * (compute_overall_similarity customer shell).name_match +
             0.1 * ((compute_overall_similarity customer shell).address_consistency / 100))
          100) ∧
    (¬(customer.Website ≠ "" ∧ shell.ZI_Website__c ≠ "") →
      ¬(customer.Name ≠ "" ∧ shell.ZI_Company_Name__c ≠ "") →
      (compute_overall_similarity customer shell).overall_score =
        min (0.6 * ((compute_overall_similarity customer shell).address_consistency / 100) +
             0.1 * ((compute_overall_similarity customer shell).address_consistency / 100))
          100) ∧
    ((customer.Website ≠ "" ∧ shell.ZI_Website__c ≠ "") →
      ∀ nameC nameS : String,
      (compute_overall_similarity
          ⟨customer.Id, nameC, customer.Website, customer.BillingCity,
            customer.BillingState, customer.BillingCountry,
            customer.BillingPostalCode⟩
          ⟨shell.Id, nameS, shell.ZI_Website__c, shell.ZI_Company_Country__c,
            shell.ZI_Company_State__c, shell.ZI_Company_City__c,
            shell.ZI_Company_Postal_Code__c⟩).overall_score =
        min (0.6 * (compute_overall_similarity
              ⟨customer.Id, nameC, customer.Website, customer.BillingCity,
                customer.BillingState, customer.BillingCountry,
                customer.BillingPostalCode⟩
              ⟨shell.Id, nameS, shell.ZI_Website__c, shell.ZI_Company_Country__c,
                shell.ZI_Company_State__c, shell.ZI_Company_City__c,
                shell.ZI_Company_Postal_Code__c⟩).website_match +
             0.3 * (compute_overall_similarity
              ⟨customer.Id, nameC, customer.Website, customer.BillingCity,
                customer.BillingState, customer.BillingCountry,
                customer.BillingPostalCode⟩
              ⟨shell.Id, nameS, shell.ZI_Website__c, shell.ZI_Company_Country__c,
                shell.ZI_Company_State__c, shell.ZI_Company_City__c,
                shell.ZI_Company_Postal_Code__c⟩).name_match +
             0.1 * ((compute_overall_similarity
              ⟨customer.Id, nameC, customer.Website, customer.BillingCity,
                customer.BillingState, customer.BillingCountry,
                customer.BillingPostalCode⟩
              ⟨shell.Id, nameS, shell.ZI_Website__c, shell.ZI_Company_Country__c,
                shell.ZI_Company_State__c, shell.ZI_Company_City__c,
                shell.ZI_Company_Postal_Code__c⟩).address_consistency / 100))
          100) := by
  refine ⟨overall_branch_website customer shell, ?_, ?_, ?_⟩
  · intro h1 h2
    rw [overall_score_field, overall_name_field, overall_address_field]
    simp only [overallRaw]
    rw [if_neg h1, if_pos h2]
    congr 1
    dsimp only
    ring
  · intro h1 h2
    rw [overall_score_field, overall_address_field]
    simp only [overallRaw]
    rw [if_neg h1, if_neg h2]
    congr 1
    dsimp only
    ring
  · intro h nameC nameS
    exact overall_branch_website _ _ ⟨h.1, h.2⟩

/-- Witness for C4: the website branch applied at a concrete pair that has
websites on both sides. -/
theorem claim_C4_witness :
    sampleCustomer.Website ≠ "" ∧ sampleShell.ZI_Website__c ≠ "" ∧
    (compute_overall_similarity sampleCustomer sampleShell).overall_score =
      min (0.6 * (compute_overall_similarity sampleCustomer sampleShell).website_match +
           0.3 * (compute_overall_similarity sampleCustomer sampleShell).name_match +
           0.1 * ((compute_overall_similarity sampleCustomer sampleShell).address_consistency / 100))
        100 :=
  ⟨by decide, by decide,
    (claim_C4 sampleCustomer sampleShell).1 ⟨by decide, by decide⟩⟩

/-- **C6.** For every (customer, shell) pair, each of the three signal scores
(`website_match`, `name_match`, `address_consistency`) returned by
`compute_overall_similarity` lies in [0, 100], and the `overall_score` also
lies in [0, 100]. -/
theorem claim_C6 (customer : CustomerAccount) (shell : ShellAccount) :
    (0 ≤ (compute_overall_similarity customer shell).website_match ∧
      (compute_overall_similarity customer shell).website_match ≤ 100) ∧
    (0 ≤ (compute_overall_similarity customer shell).name_match ∧
      (compute_overall_similarity customer shell).name_match ≤ 100) ∧
    (0 ≤ (compute_overall_similarity customer shell).address_consistency ∧
      (compute_overall_similarity customer shell).address_consistency ≤ 100) ∧
    (0 ≤ (compute_overall_similarity customer shell).overall_score ∧
      (compute_overall_similarity customer shell).overall_score ≤ 100) := by
  rw [overall_website_field, overall_name_field, overall_address_field,
    overall_score_field]
  refine ⟨compute_website_match_bounds _ _, compute_name_match_bounds _ _,
    address_score_bounds _ _, ?_, ?_⟩
  · exact le_min (overallRaw_bounds customer shell).1 (by norm_num)
  · exact min_le_right _ _

/-- **C10.** The uncapped combination is at most 90.1 (= 0.6·100 + 0.3·100 +
0.1·100/100), so the final `min (·) 100` never lowers a value and a
confidence of 100 is unreachable. -/
theorem claim_C10 (customer : CustomerAccount) (shell : ShellAccount) :
    overallRaw customer shell ≤ 901 / 10 ∧
    (compute_overall_similarity customer shell).overall_score =
      overallRaw customer shell ∧
    (compute_overall_similarity customer shell).overall_score < 100 := by
  have h := (overallRaw_bounds customer shell).2
  refine ⟨h, ?_, ?_⟩
  · rw [overall_score_field]
    exact min_eq_left (by linarith)
  · rw [overall_score_field,
      min_eq_left (by linarith : overallRaw customer shell ≤ (100 : ℚ))]
    linarith

/-! ## Claim C5 (fuzzy similarity): corrected -/

/-- Evaluation helper: `compute_fuzzy_similarity` as an explicit fraction,
given the (kernel-computable) matched length and normalized lengths.  Needed
because `ℚ` arithmetic (`Nat.gcd`-normalized) does not reduce in the kernel,
while all the `Nat`-valued ingredients do. -/
theorem fuzzy_eval {s1 s2 : String} {M l1 l2 : Nat}
    (hempty : ¬(s1 = "" ∨ s2 = ""))
    (hn : ¬(normalize_company_name s1 = "" ∨ normalize_company_name s2 = ""))
    (hM : seqMatches (normalize_company_name s1).data
            (normalize_company_name s2).data = M)
    (hl1 : (normalize_company_name s1).data.length = l1)
    (hl2 : (normalize_company_name s2).data.length = l2)
    (hne : l1 + l2 ≠ 0) :
    compute_fuzzy_similarity s1 s2 = (2 * M : ℚ) / ((l1 : ℚ) + (l2 : ℚ)) := by
  simp only [compute_fuzzy_similarity]
  rw [if_neg hempty, if_neg hn]
  unfold ratioQ
  rw [hM, hl1, hl2, if_neg hne]

/-- **C5, counterexample.** `compute_fuzzy_similarity` is NOT symmetric:
`difflib`'s greedy matching is direction-dependent.  On `("ab", "bacb")` the
longest match `a[0] = b[1]` leaves `"b"` vs `"cb"` and a second match (total
2/3), while on `("bacb", "ab")` the winning match `a[0] = b[1]` exhausts `b`
(total 1/3). -/
theorem claim_C5_counterexample :
    compute_fuzzy_similarity ("ab") ("bacb") ≠
      compute_fuzzy_similarity ("bacb") ("ab") := by
  have e1 : compute_fuzzy_similarity ("ab") ("bacb") =
      (2 * (2 : Nat) : ℚ) / (((2 : Nat) : ℚ) + ((4 : Nat) : ℚ)) :=
    fuzzy_eval (by decide) (by decide) (by decide) (by decide) (by decide)
      (by decide)
  have e2 : compute_fuzzy_similarity ("bacb") ("ab") =
      (2 * (1 : Nat) : ℚ) / (((4 : Nat) : ℚ) + ((2 : Nat) : ℚ)) :=
    fuzzy_eval (by decide) (by decide) (by decide) (by decide) (by decide)
      (by decide)
  rw [e1, e2]
  norm_num

/-- **C5 (amended).** `compute_fuzzy_similarity` returns 0.0 when either
string normalizes to empty and 1.0 when both normalize to the same non-empty
string; symmetry, however, does not hold in general (see the
counterexample). -/
theorem claim_C5_amended (a b : String) :
    ((normalize_company_name a = "" ∨ normalize_company_name b = "") →
      compute_fuzzy_similarity a b = 0) ∧
    (normalize_company_name a = normalize_company_name b →
      normalize_company_name a ≠ "" → compute_fuzzy_similarity a b = 1) :=
  ⟨fun h => compute_fuzzy_similarity_eq_zero h,
   fun h hne => compute_fuzzy_similarity_eq_one h hne⟩

/-- Witness for the amended C5 at a concrete pair. -/
theorem claim_C5_witness :
    normalize_company_name ("Acme Corp") = normalize_company_name ("acme") ∧
    normalize_company_name ("Acme Corp") ≠ "" ∧
    compute_fuzzy_similarity ("Acme Corp") ("acme") = 1 :=
  ⟨by decide, by decide,
    (claim_C5_amended ("Acme Corp") ("acme")).2 (by decide) (by decide)⟩

/-! ## Claim C2 (address consistency): code bug -/

/-- **C2, failing input.** Customer Austin/TX/USA/78701 against the same
shell address with postal 78702: the score is 90 as claimed, but because the
`else:` of the postal block is indented to the outer `if`, the mismatch list
is empty — the claimed "exactly one mismatch, for postal" is not produced.
Moreover a postal present on one side only IS listed as a mismatch
(`sampleShellNoPostal`), contradicting the claim's "not listed" clause. -/
theorem claim_C2_bug_eval :
    (addressBreakdown sampleCustomer sampleShellPostal).1 = 90 ∧
    (addressBreakdown sampleCustomer sampleShellPostal).2.2 = [] ∧
    (compute_address_consistency_score sampleCustomer sampleShellPostal).2 =
      "Matches: Country: usa, State: tx, City: austin" ∧
    (addressBreakdown sampleCustomer sampleShellNoPostal).2.2 =
      ["Postal: 78701 ≠ "] := by
  refine ⟨?_, by decide, by decide, by decide⟩
  have h : (addressBreakdown sampleCustomer sampleShellPostal).1 =
      (30 : ℚ) + 30 + 30 + 0 := rfl
  rw [h]
  norm_num

/-! ## Claim C7 (domain extraction): corrected -/

/-- **C7, counterexample.** `extract_domain_from_url` CAN return an empty
string: a URL with an empty network location such as `https://` yields
`some ""`, not `none`. -/
theorem claim_C7_counterexample :
    extract_domain_from_url ("https://") = some ("") := by decide

theorem extract_empty : extract_domain_from_url "" = none := rfl

/-- **C7 (amended).** `extract_domain_from_url` returns `none` exactly for
empty input or for input whose netloc makes `urlsplit` raise (mismatched
square brackets, or a bracketed host that is neither a valid IPv6 address
nor an IPvFuture literal); any other input yields `some` lower-cased
domain string, which may be empty (counterexample). -/
theorem claim_C7_amended (url : String) :
    (extract_domain_from_url url = none ↔
      (url = "" ∨ urlsplitFails (netlocOf url) = true)) ∧
    (∀ d, extract_domain_from_url url = some d → pyLowerStr d = d) := by
  constructor
  · constructor
    · intro h
      by_cases h1 : url = ""
      · exact Or.inl h1
      · right
        simp only [extract_domain_from_url, if_neg h1] at h
        by_cases h2 : urlsplitFails (netlocOf url) = true
        · exact h2
        · rw [if_neg h2] at h
          split at h <;> simp at h
    · intro h
      rcases h with rfl | h2
      · exact extract_empty
      · by_cases h1 : url = ""
        · rw [h1]
          exact extract_empty
        · simp only [extract_domain_from_url, if_neg h1, if_pos h2]
  · intro d hd
    by_cases h1 : url = ""
    · rw [h1, extract_empty] at hd
      cases hd
    · simp only [extract_domain_from_url, if_neg h1] at hd
      by_cases h2 : urlsplitFails (netlocOf url) = true
      · rw [if_pos h2] at hd
        cases hd
      · rw [if_neg h2] at hd
        have hchars : ∀ c ∈ d.data, ¬('A' ≤ c ∧ c ≤ 'Z') := by
          split at hd
          · rename_i p hp
            injection hd with hd
            subst hd
            intro c hc
            exact mem_pyLower_noUpper (List.drop_subset _ _ hc)
          · injection hd with hd
            subst hd
            intro c hc
            exact mem_pyLower_noUpper hc
        obtain ⟨ld⟩ := d
        show (⟨pyLower ld⟩ : String) = ⟨ld⟩
        exact congrArg String.mk (pyLower_fix hchars)


/-- Witness for the amended C7: a concrete successful extraction is already
lower-cased. -/
theorem claim_C7_witness :
    extract_domain_from_url ("https://www.Acme.com/path") = some ("acme.com") ∧
    pyLowerStr ("acme.com") = "acme.com" :=
  ⟨by decide,
    (claim_C7_amended ("https://www.Acme.com/path")).2 ("acme.com") (by decide)⟩

/-! ## Claim C1 (ranking engine fallback) -/

theorem rank_length (customer : CustomerAccount) (candidates : List ShellAccount) :
    (rank_shell_candidates customer candidates).length = candidates.length := by
  unfold rank_shell_candidates
  rw [List.length_mergeSort, List.length_map]

/-- **C1.** For every customer and every non-empty shell collection,
`find_best_shell_match` returns a success result (carrying a best match); in
particular the "No viable shell candidates found" outcome is never produced,
because an empty fast-filter candidate list falls back to scoring the entire
shell collection. -/
theorem claim_C1 (customer : CustomerAccount) (shell_accounts : List ShellAccount)
    (h : shell_accounts ≠ []) :
    (find_best_shell_match customer shell_accounts).isSuccess = true := by
  unfold find_best_shell_match
  rw [if_neg (by simpa using h)]
  have hcand : (if (fast_filter_candidates customer
      (create_hash_buckets shell_accounts)).isEmpty then shell_accounts
      else fast_filter_candidates customer
        (create_hash_buckets shell_accounts)) ≠ [] := by
    split
    · exact h
    · rename_i hne
      simpa using hne
  have hrank : rank_shell_candidates customer
      (if (fast_filter_candidates customer
        (create_hash_buckets shell_accounts)).isEmpty then shell_accounts
        else fast_filter_candidates customer
          (create_hash_buckets shell_accounts)) ≠ [] := by
    intro he
    apply hcand
    have := rank_length customer
      (if (fast_filter_candidates customer
        (create_hash_buckets shell_accounts)).isEmpty then shell_accounts
        else fast_filter_candidates customer
          (create_hash_buckets shell_accounts))
    rw [he] at this
    exact List.length_eq_zero.mp this.symm
  dsimp only
  split
  · rename_i heq
    exact absurd heq hrank
  · rfl

/-- Witness for C1 at a concrete one-element shell collection. -/
theorem claim_C1_witness :
    [sampleShell] ≠ ([] : List ShellAccount) ∧
    (find_best_shell_match sampleCustomer [sampleShell]).isSuccess = true :=
  ⟨by decide, claim_C1 sampleCustomer [sampleShell] (by decide)⟩

/-! ## Claim C9 (result assembler) -/

/-- **C9.** The row assembler produces exactly one row per input customer
(total length is the sum of the four input lengths, and the per-status row
counts equal the respective input lengths — the four statuses are mutually
exclusive string constants), every row carries one of the four statuses, and
the output is sorted by customer display name. -/
theorem claim_C9 (matched_pairs : List MatchedPair)
    (unmatched_customers : List UnmatchedCustomer)
    (flagged_customers : List CustomerAccount)
    (invalid_customers : List String) :
    (create_matching_results_export matched_pairs unmatched_customers
        flagged_customers invalid_customers).length =
      matched_pairs.length + unmatched_customers.length +
        flagged_customers.length + invalid_customers.length ∧
    (create_matching_results_export matched_pairs unmatched_customers
        flagged_customers invalid_customers).countP
        (fun r => decide (r.status = "MATCHED")) = matched_pairs.length ∧
    (create_matching_results_export matched_pairs unmatched_customers
        flagged_customers invalid_customers).countP
        (fun r => decide (r.status = "UNMATCHED")) = unmatched_customers.length ∧
    (create_matching_results_export matched_pairs unmatched_customers
        flagged_customers invalid_customers).countP
        (fun r => decide (r.status = "FLAGGED")) = flagged_customers.length ∧
    (create_matching_results_export matched_pairs unmatched_customers
        flagged_customers invalid_customers).countP
        (fun r => decide (r.status = "INVALID")) = invalid_customers.length ∧
    (∀ r ∈ create_matching_results_export matched_pairs unmatched_customers
        flagged_customers invalid_customers,
      r.status = "MATCHED" ∨ r.status = "UNMATCHED" ∨ r.status = "FLAGGED" ∨
        r.status = "INVALID") ∧
    List.Pairwise (fun a b : ResultRow => a.customerName ≤ b.customerName)
      (create_matching_results_export matched_pairs unmatched_customers
        flagged_customers invalid_customers) := by
  have hperm : ∀ rows : List ResultRow,
      (rows.mergeSort fun a b => decide (a.customerName ≤ b.customerName)).Perm
        rows := fun rows => List.mergeSort_perm rows _
  unfold create_matching_results_export
  refine ⟨?_, ?_, ?_, ?_, ?_, ?_, ?_⟩
  · rw [(hperm _).length_eq]
    simp [List.length_append]
    omega
  · rw [(hperm _).countP_eq]
    simp [List.countP_append, List.countP_map, Function.comp_def,
      List.countP_eq_length, List.countP_replicate]
  · rw [(hperm _).countP_eq]
    simp [List.countP_append, List.countP_map, Function.comp_def,
      List.countP_eq_length, List.countP_replicate]
  · rw [(hperm _).countP_eq]
    simp [List.countP_append, List.countP_map, Function.comp_def,
      List.countP_eq_length, List.countP_replicate]
  · rw [(hperm _).countP_eq]
    simp [List.countP_append, List.countP_map, Function.comp_def,
      List.countP_eq_length, List.countP_replicate]
  · intro r hr
    rw [(hperm _).mem_iff] at hr
    simp only [List.mem_append, List.mem_map] at hr
    rcases hr with ((⟨p, _, rfl⟩ | ⟨u, _, rfl⟩) | ⟨c, _, rfl⟩) | ⟨i, _, rfl⟩
    · left; rfl
    · right; left; rfl
    · right; right; left; rfl
    · right; right; right; rfl
  · have := @List.sorted_mergeSort ResultRow
      (fun a b : ResultRow => decide (a.customerName ≤ b.customerName))
      (fun a b c h1 h2 => by
        simp only [decide_eq_true_eq] at h1 h2 ⊢
        exact le_trans h1 h2)
      (fun a b => by
        simp only [Bool.or_eq_true, decide_eq_true_eq]
        exact le_total a.customerName b.customerName)
      ((matched_pairs.map fun p =>
          (⟨p.customer_account.Name, "MATCHED"⟩ : ResultRow)) ++
        (unmatched_customers.map fun u =>
          (⟨u.customer_account.Name, "UNMATCHED"⟩ : ResultRow)) ++
        (flagged_customers.map fun c => (⟨c.Name, "FLAGGED"⟩ : ResultRow)) ++
        (invalid_customers.map fun _id =>
          (⟨"INVALID ACCOUNT ID", "INVALID"⟩ : ResultRow)))
    refine List.Pairwise.imp ?_ this
    intro a b hab
    simpa using hab


/-! ## Claim C8 (fast filter) -/

theorem mem_insertId {ids : List String} {key x : String} :
    x ∈ insertId ids key ↔ x = key ∨ x ∈ ids := by
  unfold insertId
  split
  · rename_i hmem
    constructor
    · exact Or.inr
    · intro h
      rcases h with rfl | h
      · exact hmem
      · exact h
  · exact List.mem_cons

theorem mem_foldl_insertId (l : List ShellAccount) :
    ∀ (init : List String) (x : String),
      (x ∈ l.foldl (fun ids sh => insertId ids sh.Id) init ↔
        x ∈ init ∨ x ∈ l.map fun sh => sh.Id) := by
  induction l with
  | nil => simp
  | cons sh rest ih =>
    intro init x
    simp only [List.foldl_cons, List.map_cons, List.mem_cons]
    rw [ih, mem_insertId]
    tauto

theorem foldl_nameTokenStep_mono (hb : HashBuckets) :
    ∀ (toks : List String) (init : List String) (x : String),
      x ∈ init → x ∈ toks.foldl (nameTokenStep hb) init := by
  intro toks
  induction toks with
  | nil => intro init x h; exact h
  | cons t rest ih =>
    intro init x h
    simp only [List.foldl_cons]
    apply ih
    unfold nameTokenStep
    split
    · exact (mem_foldl_insertId _ _ _).2 (Or.inl h)
    · exact h

theorem mem_foldl_nameTokenStep (hb : HashBuckets) :
    ∀ (toks : List String) (init : List String) (tok : String)
      (sh : ShellAccount), tok ∈ toks → 2 < tok.length →
      sh ∈ bucketGet hb.name_buckets tok →
      sh.Id ∈ toks.foldl (nameTokenStep hb) init := by
  intro toks
  induction toks with
  | nil =>
    intro init tok sh htok
    cases htok
  | cons t rest ih =>
    intro init tok sh htok hlen hsh
    simp only [List.foldl_cons]
    rcases List.mem_cons.1 htok with rfl | htok2
    · apply foldl_nameTokenStep_mono
      unfold nameTokenStep
      rw [if_pos hlen]
      exact (mem_foldl_insertId _ _ _).2
        (Or.inr (List.mem_map_of_mem _ hsh))
    · exact ih _ tok sh htok2 hlen hsh

theorem mem_websiteCandidateIds {customer : CustomerAccount} {hb : HashBuckets}
    {tok : String} {sh : ShellAccount}
    (htok : domainTokenOf customer.Website = some tok)
    (hsh : sh ∈ bucketGet hb.website_buckets tok) :
    sh.Id ∈ websiteCandidateIds customer hb := by
  unfold websiteCandidateIds
  rw [htok]
  exact (mem_foldl_insertId _ _ _).2 (Or.inr (List.mem_map_of_mem _ hsh))

theorem websiteIds_subset_candidateIds {customer : CustomerAccount}
    {hb : HashBuckets} {x : String} (h : x ∈ websiteCandidateIds customer hb) :
    x ∈ candidateIds customer hb := by
  simp only [candidateIds]
  split
  · exact foldl_nameTokenStep_mono hb _ _ x h
  · exact h

theorem mem_of_bucketGet {bs : List (String × List ShellAccount)} {tok : String}
    {sh : ShellAccount} (h : sh ∈ bucketGet bs tok) : ∃ kv ∈ bs, sh ∈ kv.2 := by
  unfold bucketGet at h
  split at h
  · rename_i kv hkv
    exact ⟨kv, List.mem_of_find?_eq_some hkv, h⟩
  · cases h

theorem mem_allBucketShells_web {hb : HashBuckets} {tok : String}
    {sh : ShellAccount} (h : sh ∈ bucketGet hb.website_buckets tok) :
    sh ∈ allBucketShells hb := by
  obtain ⟨kv, hkv, hsh⟩ := mem_of_bucketGet h
  unfold allBucketShells
  apply List.mem_append_left
  exact List.mem_flatten.2 ⟨kv.2, List.mem_map_of_mem _ hkv, hsh⟩

theorem mem_allBucketShells_name {hb : HashBuckets} {tok : String}
    {sh : ShellAccount} (h : sh ∈ bucketGet hb.name_buckets tok) :
    sh ∈ allBucketShells hb := by
  obtain ⟨kv, hkv, hsh⟩ := mem_of_bucketGet h
  unfold allBucketShells
  apply List.mem_append_right
  exact List.mem_flatten.2 ⟨kv.2, List.mem_map_of_mem _ hkv, hsh⟩

theorem dedupFilter_sound (cands : List String) :
    ∀ (l : List ShellAccount) (seen : List String) (sh : ShellAccount),
      sh ∈ dedupFilter cands l seen → sh ∈ l ∧ sh.Id ∈ cands := by
  intro l
  induction l with
  | nil =>
    intro seen sh h
    cases h
  | cons hd rest ih =>
    intro seen sh h
    unfold dedupFilter at h
    split at h
    · rename_i hcond
      rcases List.mem_cons.1 h with rfl | h2
      · exact ⟨List.mem_cons_self _ _, hcond.1⟩
      · obtain ⟨hmem, hid⟩ := ih _ sh h2
        exact ⟨List.mem_cons_of_mem _ hmem, hid⟩
    · obtain ⟨hmem, hid⟩ := ih _ sh h
      exact ⟨List.mem_cons_of_mem _ hmem, hid⟩

theorem dedupFilter_nodup (cands : List String) :
    ∀ (l : List ShellAccount) (seen : List String),
      ((dedupFilter cands l seen).map fun sh => sh.Id).Nodup ∧
      ∀ x ∈ (dedupFilter cands l seen).map fun sh => sh.Id, x ∉ seen := by
  intro l
  induction l with
  | nil =>
    intro seen
    constructor
    · exact List.nodup_nil
    · intro x hx
      cases hx
  | cons hd rest ih =>
    intro seen
    unfold dedupFilter
    split
    · rename_i hcond
      obtain ⟨ihn, ihs⟩ := ih (hd.Id :: seen)
      simp only [List.map_cons, List.nodup_cons]
      refine ⟨⟨?_, ihn⟩, ?_⟩
      · intro hmem
        exact ihs hd.Id hmem (List.mem_cons_self _ _)
      · intro x hx
        rcases List.mem_cons.1 hx with rfl | hx2
        · exact hcond.2
        · intro hxseen
          exact ihs x hx2 (List.mem_cons_of_mem _ hxseen)
    · exact ih seen

theorem dedupFilter_complete (cands : List String) :
    ∀ (l : List ShellAccount) (seen : List String) (x : String),
      x ∈ cands → (∃ sh ∈ l, sh.Id = x) → x ∉ seen →
      x ∈ (dedupFilter cands l seen).map fun sh => sh.Id := by
  intro l
  induction l with
  | nil =>
    intro seen x _ hex
    simp at hex
  | cons hd rest ih =>
    intro seen x hx hex hseen
    unfold dedupFilter
    split
    · rename_i hcond
      by_cases hxs : x = hd.Id
      · subst hxs
        simp
      · simp only [List.map_cons, List.mem_cons]
        right
        apply ih (hd.Id :: seen) x hx
        · rcases hex with ⟨sh, hsh, rfl⟩
          rcases List.mem_cons.1 hsh with rfl | hsh2
          · exact absurd rfl (fun e => hxs e.symm)
          · exact ⟨sh, hsh2, rfl⟩
        · intro hx2
          rcases List.mem_cons.1 hx2 with rfl | hx3
          · exact hxs rfl
          · exact hseen hx3
    · rename_i hcond
      apply ih seen x hx ?_ hseen
      rcases hex with ⟨sh, hsh, rfl⟩
      rcases List.mem_cons.1 hsh with rfl | hsh2
      · exfalso
        apply hcond
        refine ⟨hx, hseen⟩
      · exact ⟨sh, hsh2, rfl⟩

/-- **C8.** For every customer and bucket index: (1) the filtered list
contains each selected shell exactly once per identifier (the identifier list
is duplicate-free); (2) every member of the customer's domain-token bucket is
selected; (3) when the website step already collected 10 or more distinct
identifiers the name buckets are not consulted — every output identifier
comes from the website step; (4) when the customer has a name and the website
step collected fewer than 10, every shell in the bucket of a name token
longer than 2 characters is selected. -/
theorem claim_C8 (customer : CustomerAccount) (hb : HashBuckets) :
    ((fast_filter_candidates customer hb).map fun sh => sh.Id).Nodup ∧
    (∀ tok, domainTokenOf customer.Website = some tok →
      ∀ sh ∈ bucketGet hb.website_buckets tok,
        sh.Id ∈ (fast_filter_candidates customer hb).map fun sh => sh.Id) ∧
    (10 ≤ (websiteCandidateIds customer hb).length →
      ∀ sh ∈ fast_filter_candidates customer hb,
        sh.Id ∈ websiteCandidateIds customer hb) ∧
    (customer.Name ≠ "" → (websiteCandidateIds customer hb).length < 10 →
      ∀ tok ∈ nameTokensOf customer.Name, 2 < tok.length →
        ∀ sh ∈ bucketGet hb.name_buckets tok,
          sh.Id ∈ (fast_filter_candidates customer hb).map fun sh => sh.Id) := by
  refine ⟨?_, ?_, ?_, ?_⟩
  · exact (dedupFilter_nodup _ (allBucketShells hb) []).1
  · intro tok htok sh hsh
    apply dedupFilter_complete
    · exact websiteIds_subset_candidateIds (mem_websiteCandidateIds htok hsh)
    · exact ⟨sh, mem_allBucketShells_web hsh, rfl⟩
    · simp
  · intro h10 sh hsh
    have hid := (dedupFilter_sound _ (allBucketShells hb) [] sh hsh).2
    have hno : ¬(customer.Name ≠ "" ∧
        (websiteCandidateIds customer hb).length < 10) := by
      rintro ⟨h1, hlt⟩
      omega
    simp only [candidateIds] at hid
    rw [if_neg hno] at hid
    exact hid
  · intro hname hlt tok htokmem hlen sh hsh
    apply dedupFilter_complete
    · simp only [candidateIds]
      rw [if_pos ⟨hname, hlt⟩]
      exact mem_foldl_nameTokenStep hb _ _ tok sh htokmem hlen hsh
    · exact ⟨sh, mem_allBucketShells_name hsh, rfl⟩
    · simp


/-- A one-bucket index for the C8 witness. -/
def sampleBuckets : HashBuckets := ⟨[(("acme"), [sampleShell])], []⟩

/-- Witness for C8: a concrete domain-bucket member is selected. -/
theorem claim_C8_witness :
    domainTokenOf sampleCustomer.Website = some ("acme") ∧
    sampleShell ∈ bucketGet sampleBuckets.website_buckets ("acme") ∧
    sampleShell.Id ∈
      (fast_filter_candidates sampleCustomer sampleBuckets).map fun sh => sh.Id :=
  ⟨by decide, by decide,
    (claim_C8 sampleCustomer sampleBuckets).2.1 ("acme") (by decide) sampleShell
      (by decide)⟩

/-! ## Claim C3 (normalization idempotence): corrected

The suffix loop runs once per business suffix, so a second normalization can
strip a further legal suffix.  Idempotence holds exactly when the normalized
output does not itself end in a separator+suffix pattern; the machinery below
proves the second pass is then the identity, stage by stage. -/

theorem splitWsAux_words_good :
    ∀ (l acc : List Char), (∀ c ∈ acc, pyIsSpace c = false) →
      ∀ w ∈ splitWsAux l acc, w ≠ [] ∧ ∀ c ∈ w, pyIsSpace c = false := by
  intro l
  induction l with
  | nil =>
    intro acc hacc w hw
    simp only [splitWsAux] at hw
    split at hw
    · cases hw
    · rename_i hne
      rw [List.mem_singleton] at hw
      subst hw
      refine ⟨by simpa using hne, ?_⟩
      intro c hc
      exact hacc c (List.mem_reverse.1 hc)
  | cons x xs ih =>
    intro acc hacc w hw
    simp only [splitWsAux] at hw
    split at hw
    · rename_i hsp
      split at hw
      · exact ih [] (by simp) w hw
      · rename_i hne
        rcases List.mem_cons.1 hw with rfl | hw2
        · refine ⟨by simpa using hne, ?_⟩
          intro c hc
          exact hacc c (List.mem_reverse.1 hc)
        · exact ih [] (by simp) w hw2
    · rename_i hsp
      refine ih (x :: acc) ?_ w hw
      intro c hc
      rcases List.mem_cons.1 hc with rfl | hc2
      · simpa using hsp
      · exact hacc c hc2

theorem splitWs_words_good (l : List Char) :
    ∀ w ∈ splitWs l, w ≠ [] ∧ ∀ c ∈ w, pyIsSpace c = false :=
  splitWsAux_words_good l [] (by simp)

theorem splitWsAux_subset :
    ∀ (l acc : List Char) (w : List Char), w ∈ splitWsAux l acc →
      ∀ c ∈ w, c ∈ acc ∨ c ∈ l := by
  intro l
  induction l with
  | nil =>
    intro acc w hw c hc
    simp only [splitWsAux] at hw
    split at hw
    · cases hw
    · rw [List.mem_singleton] at hw
      subst hw
      exact Or.inl (List.mem_reverse.1 hc)
  | cons x xs ih =>
    intro acc w hw c hc
    simp only [splitWsAux] at hw
    split at hw
    · split at hw
      · rcases ih [] w hw c hc with h | h
        · cases h
        · exact Or.inr (List.mem_cons_of_mem _ h)
      · rcases List.mem_cons.1 hw with rfl | hw2
        · exact Or.inl (List.mem_reverse.1 hc)
        · rcases ih [] w hw2 c hc with h | h
          · cases h
          · exact Or.inr (List.mem_cons_of_mem _ h)
    · rcases ih (x :: acc) w hw c hc with h | h
      · rcases List.mem_cons.1 h with rfl | h2
        · exact Or.inr (List.mem_cons_self _ _)
        · exact Or.inl h2
      · exact Or.inr (List.mem_cons_of_mem _ h)

theorem splitWs_subset {l w : List Char} (hw : w ∈ splitWs l) {c : Char}
    (hc : c ∈ w) : c ∈ l := by
  rcases splitWsAux_subset l [] w hw c hc with h | h
  · cases h
  · exact h

theorem splitWsAux_all_nonspace {w : List Char}
    (hw : ∀ c ∈ w, pyIsSpace c = false) :
    ∀ acc : List Char, splitWsAux w acc =
      if acc.reverse ++ w = [] then [] else [acc.reverse ++ w] := by
  induction w with
  | nil =>
    intro acc
    simp only [splitWsAux, List.append_nil]
    rcases Decidable.em (acc = []) with rfl | hne
    · simp
    · rw [if_neg (by simpa using hne), if_neg (by simpa using hne)]
  | cons x xs ih =>
    intro acc
    simp only [splitWsAux]
    rw [if_neg (by simpa using hw x (List.mem_cons_self _ _))]
    rw [ih (fun c hc => hw c (List.mem_cons_of_mem _ hc)) (x :: acc)]
    simp

theorem splitWsAux_word_sep {w : List Char}
    (hw : ∀ c ∈ w, pyIsSpace c = false) :
    ∀ (acc rest : List Char), acc.reverse ++ w ≠ [] →
      splitWsAux (w ++ ' ' :: rest) acc =
        (acc.reverse ++ w) :: splitWsAux rest [] := by
  induction w with
  | nil =>
    intro acc rest hne
    simp only [List.nil_append, splitWsAux]
    rw [if_pos (by decide)]
    rw [if_neg (by simpa using hne)]
    simp
  | cons x xs ih =>
    intro acc rest hne
    simp only [List.cons_append, splitWsAux]
    rw [if_neg (by simpa using hw x (List.mem_cons_self _ _))]
    show splitWsAux (xs ++ ' ' :: rest) (x :: acc) =
      (acc.reverse ++ x :: xs) :: splitWsAux rest []
    rw [ih (fun c hc => hw c (List.mem_cons_of_mem _ hc)) (x :: acc) rest
      (by simp)]
    simp

theorem splitWs_joinWords :
    ∀ ws : List (List Char),
      (∀ w ∈ ws, w ≠ [] ∧ ∀ c ∈ w, pyIsSpace c = false) →
      splitWs (joinWords ws) = ws := by
  intro ws
  induction ws with
  | nil =>
    intro _
    rfl
  | cons w ws ih =>
    intro h
    cases ws with
    | nil =>
      obtain ⟨hne, hsp⟩ := h w (List.mem_cons_self _ _)
      show splitWsAux (joinWords [w]) [] = [w]
      simp only [joinWords]
      rw [splitWsAux_all_nonspace hsp []]
      simp only [List.reverse_nil, List.nil_append]
      rw [if_neg hne]
    | cons w2 ws2 =>
      obtain ⟨hne, hsp⟩ := h w (List.mem_cons_self _ _)
      show splitWsAux (joinWords (w :: w2 :: ws2)) [] = w :: w2 :: ws2
      have hjw : joinWords (w :: w2 :: ws2) = w ++ ' ' :: joinWords (w2 :: ws2) := rfl
      rw [hjw, splitWsAux_word_sep hsp [] (joinWords (w2 :: ws2))
        (by simpa using hne)]
      simp only [List.reverse_nil, List.nil_append]
      rw [show splitWsAux (joinWords (w2 :: ws2)) [] = splitWs (joinWords (w2 :: ws2)) from rfl]
      rw [ih fun v hv => h v (List.mem_cons_of_mem _ hv)]

theorem collapseWs_idem (l : List Char) :
    collapseWs (collapseWs l) = collapseWs l :=
  congrArg joinWords (splitWs_joinWords (splitWs l) (splitWs_words_good l))

theorem mem_joinWords :
    ∀ (ws : List (List Char)) (c : Char), c ∈ joinWords ws →
      c = ' ' ∨ ∃ w ∈ ws, c ∈ w := by
  intro ws
  induction ws with
  | nil =>
    intro c hc
    cases hc
  | cons w ws ih =>
    intro c hc
    cases ws with
    | nil =>
      exact Or.inr ⟨w, List.mem_cons_self _ _, hc⟩
    | cons w2 ws2 =>
      rw [show joinWords (w :: w2 :: ws2) = w ++ ' ' :: joinWords (w2 :: ws2) from rfl] at hc
      rcases List.mem_append.1 hc with h | h
      · exact Or.inr ⟨w, List.mem_cons_self _ _, h⟩
      · rcases List.mem_cons.1 h with rfl | h2
        · exact Or.inl rfl
        · rcases ih c h2 with h3 | ⟨v, hv, hcv⟩
          · exact Or.inl h3
          · exact Or.inr ⟨v, List.mem_cons_of_mem _ hv, hcv⟩

theorem mem_collapseWs {l : List Char} {c : Char} (h : c ∈ collapseWs l) :
    c = ' ' ∨ c ∈ l := by
  rcases mem_joinWords (splitWs l) c h with h2 | ⟨w, hw, hcw⟩
  · exact Or.inl h2
  · exact Or.inr (splitWs_subset hw hcw)

theorem mem_denoise {l : List Char} {c : Char} (h : c ∈ denoise l) :
    c = ' ' ∨ (c ∈ l ∧ (isAlnumAscii c || pyIsSpace c) = true) := by
  obtain ⟨x, hx, rfl⟩ := List.mem_map.1 h
  unfold denoiseChar
  split
  · rename_i hkeep
    exact Or.inr ⟨hx, hkeep⟩
  · exact Or.inl rfl

theorem stripOneSuffix_subset (l : List Char) (suf : String) :
    stripOneSuffix l suf ⊆ l := by
  unfold stripOneSuffix
  split
  · exact List.take_subset _ _
  · exact fun c hc => hc

theorem foldl_stripOneSuffix_subset :
    ∀ (sufs : List String) (l : List Char), sufs.foldl stripOneSuffix l ⊆ l := by
  intro sufs
  induction sufs with
  | nil => exact fun l c hc => hc
  | cons s rest ih =>
    intro l
    exact fun c hc => stripOneSuffix_subset l s (ih (stripOneSuffix l s) hc)

theorem stripBusinessSuffixes_subset (l : List Char) :
    stripBusinessSuffixes l ⊆ l :=
  foldl_stripOneSuffix_subset business_suffixes l

theorem normalizeCore_chars (l : List Char) :
    ∀ c ∈ normalizeCore l,
      c = ' ' ∨ (isAlnumAscii c = true ∧ pyIsSpace c = false ∧
        ¬('A' ≤ c ∧ c ≤ 'Z')) := by
  intro c hc
  unfold normalizeCore at hc
  rcases mem_joinWords _ c hc with rfl | ⟨w, hw, hcw⟩
  · exact Or.inl rfl
  · right
    have hgood := (splitWs_words_good _ w hw).2 c hcw
    have hmem := splitWs_subset hw hcw
    rcases mem_denoise hmem with rfl | ⟨hmem2, hkeep⟩
    · exact absurd hgood (by decide)
    · have halnum : isAlnumAscii c = true := by
        rcases Bool.or_eq_true_iff.1 hkeep with h | h
        · exact h
        · exact absurd h (by rw [hgood]; decide)
      have hup := mem_pyLower_noUpper (stripBusinessSuffixes_subset _ hmem2)
      exact ⟨halnum, hgood, hup⟩

theorem denoiseChar_fix {c : Char} (h : (isAlnumAscii c || pyIsSpace c) = true) :
    denoiseChar c = c := by
  unfold denoiseChar
  exact if_pos h

theorem denoise_fix {l : List Char}
    (h : ∀ c ∈ l, (isAlnumAscii c || pyIsSpace c) = true) : denoise l = l := by
  induction l with
  | nil => rfl
  | cons c cs ih =>
    have hc := denoiseChar_fix (h c (List.mem_cons_self _ _))
    have hcs := ih fun d hd => h d (List.mem_cons_of_mem _ hd)
    simp only [denoise, List.map_cons] at hcs ⊢
    rw [hc, hcs]

theorem stripOneSuffix_fix {l : List Char} {suf : String}
    (h : ∀ p ∈ suffixPatterns suf, p.isSuffixOf l = false) :
    stripOneSuffix l suf = l := by
  unfold stripOneSuffix
  rw [List.find?_eq_none.2 fun p hp => by rw [h p hp]; exact Bool.false_ne_true]

theorem foldl_stripOneSuffix_fix :
    ∀ (sufs : List String) (l : List Char),
      (∀ suf ∈ sufs, ∀ p ∈ suffixPatterns suf, p.isSuffixOf l = false) →
      sufs.foldl stripOneSuffix l = l := by
  intro sufs
  induction sufs with
  | nil => intro l _; rfl
  | cons s rest ih =>
    intro l h
    simp only [List.foldl_cons]
    rw [stripOneSuffix_fix (h s (List.mem_cons_self _ _))]
    exact ih l fun suf hsuf => h suf (List.mem_cons_of_mem _ hsuf)

theorem stripBusinessSuffixes_fix {l : List Char}
    (h : ∀ p ∈ allSuffixPatterns, p.isSuffixOf l = false) :
    stripBusinessSuffixes l = l := by
  apply foldl_stripOneSuffix_fix
  intro suf hsuf p hp
  exact h p (List.mem_flatMap.2 ⟨suf, hsuf, hp⟩)

theorem normalizeCore_fix (l : List Char)
    (h : ∀ p ∈ allSuffixPatterns, p.isSuffixOf (normalizeCore l) = false) :
    normalizeCore (normalizeCore l) = normalizeCore l := by
  have hch := normalizeCore_chars l
  have h1 : pyLower (normalizeCore l) = normalizeCore l := by
    apply pyLower_fix
    intro c hc
    rcases hch c hc with rfl | ⟨_, _, hup⟩
    · decide
    · exact hup
  have h2 : stripBusinessSuffixes (normalizeCore l) = normalizeCore l :=
    stripBusinessSuffixes_fix h
  have h3 : denoise (normalizeCore l) = normalizeCore l := by
    apply denoise_fix
    intro c hc
    rcases hch c hc with rfl | ⟨ha, _, _⟩
    · decide
    · rw [ha]
      rfl
  have h4 : collapseWs (normalizeCore l) = normalizeCore l :=
    collapseWs_idem (denoise (stripBusinessSuffixes (pyLower l)))
  calc normalizeCore (normalizeCore l)
      = collapseWs (denoise (stripBusinessSuffixes (pyLower (normalizeCore l)))) := rfl
    _ = collapseWs (denoise (stripBusinessSuffixes (normalizeCore l))) := by rw [h1]
    _ = collapseWs (denoise (normalizeCore l)) := by rw [h2]
    _ = collapseWs (normalizeCore l) := by rw [h3]
    _ = normalizeCore l := h4

/-- **C3, counterexample.** Normalization is NOT idempotent: each business
suffix is stripped at most once per pass, so `"a inc inc"` normalizes to
`"a inc"`, which normalizes again to `"a"`. -/
theorem claim_C3_counterexample :
    normalize_company_name (normalize_company_name ("a inc inc")) ≠
      normalize_company_name ("a inc inc") := by decide

theorem data_mk (l : List Char) : (⟨l⟩ : String).data = l := rfl

theorem normalize_mk_eq (t : List Char) (hne : (⟨t⟩ : String) ≠ "")
    (hfix : normalizeCore t = t) :
    normalize_company_name ⟨t⟩ = ⟨t⟩ := by
  unfold normalize_company_name
  rw [if_neg hne, data_mk, hfix]

/-- **C3 (amended).** `normalize_company_name` is idempotent on every string
whose normalized form does not itself end in one of the 52 separator+suffix
patterns; in general a second application can strip one further legal suffix
per listed suffix (counterexample: `"a inc inc"`). -/
theorem claim_C3_amended (s : String)
    (h : ∀ p ∈ allSuffixPatterns,
      p.isSuffixOf (normalize_company_name s).data = false) :
    normalize_company_name (normalize_company_name s) =
      normalize_company_name s := by
  by_cases hs : s = ""
  · subst hs
    rfl
  · by_cases hempty : normalize_company_name s = ""
    · rw [hempty]
      rfl
    · have hdef : normalize_company_name s = ⟨normalizeCore s.data⟩ := by
        unfold normalize_company_name
        rw [if_neg hs]
      rw [hdef] at h hempty ⊢
      rw [data_mk] at h
      exact normalize_mk_eq _ hempty (normalizeCore_fix s.data h)

/-- Witness for the amended C3 at a concrete input. -/
theorem claim_C3_witness :
    (∀ p ∈ allSuffixPatterns,
      p.isSuffixOf (normalize_company_name ("Acme Corp")).data = false) ∧
    normalize_company_name (normalize_company_name ("Acme Corp")) =
      normalize_company_name ("Acme Corp") :=
  ⟨by decide, claim_C3_amended ("Acme Corp") (by decide)⟩


-- Witness for C9: the single matched row of a one-customer input carries one
-- of the four statuses (mergeSort is unsealed so the row list evaluates).
unseal List.merge List.mergeSort in
theorem claim_C9_witness :
    (⟨"Acme Corp", "MATCHED"⟩ : ResultRow) ∈
      create_matching_results_export [⟨sampleCustomer⟩] [] [] [] ∧
    ((⟨"Acme Corp", "MATCHED"⟩ : ResultRow).status = "MATCHED" ∨
      (⟨"Acme Corp", "MATCHED"⟩ : ResultRow).status = "UNMATCHED" ∨
      (⟨"Acme Corp", "MATCHED"⟩ : ResultRow).status = "FLAGGED" ∨
      (⟨"Acme Corp", "MATCHED"⟩ : ResultRow).status = "INVALID") :=
  ⟨by decide,
    (claim_C9 [⟨sampleCustomer⟩] [] [] []).2.2.2.2.2.1 _ (by decide)⟩

end SFDC
